import Mathlib

/-!
Verification development for the dabir Markdown-editor conversion engine.

Shallow embedding of the four parsers and the markup-to-Markdown
serializer found in `src/parsers/inlineParser.js`, `src/parsers/blockParser.js`,
`src/parsers/liveParser.js`, `src/parsers/markdownParser.js` and the
`HtmlParser` class.  Strings are modelled as `List Char` (JS strings are
sequences of code units; the source only ever manipulates them
character-wise through regexes, `trim`, `substring`, `startsWith`,
`split` and concatenation).  Each JS regex is translated into an
explicit scanning function that follows the regex engine's
left-to-right, retry-on-failure semantics.  Scanners that jump over a
matched region take an explicit fuel argument (decremented on every
recursive call) so that every definition is structurally recursive and
kernel-reducible; the public wrapper passes the input length as fuel,
which is sufficient because every recursive call consumes at least one
character of the remaining input.
-/

set_option maxRecDepth 20000

/-- The backtick character (U+0060). -/
def backtick : Char := Char.ofNat 96

/-- JS `\s` / `String.prototype.trim` whitespace: WhiteSpace ∪ LineTerminator
(tab, LF, VT, FF, CR, space, NBSP, BOM, Unicode Zs, LS, PS). -/
def jsWhitespace (c : Char) : Bool :=
  c = ' ' || c = '\t' || c = '\n' || c = '\r' || c.toNat = 11 || c.toNat = 12 ||
  c.toNat = 0xA0 || c.toNat = 0xFEFF || c.toNat = 0x1680 ||
  (0x2000 ≤ c.toNat && c.toNat ≤ 0x200A) || c.toNat = 0x2028 || c.toNat = 0x2029 ||
  c.toNat = 0x202F || c.toNat = 0x205F || c.toNat = 0x3000

/-- JS LineTerminator characters (what `.` in a regex without the `s`
flag does NOT match): LF, CR, LS (U+2028), PS (U+2029). -/
def isLineTerminator (c : Char) : Bool :=
  c = '\n' || c = '\r' || c.toNat = 0x2028 || c.toNat = 0x2029

/-- JS `String.prototype.trim`: strip leading and trailing whitespace. -/
def jsTrim (l : List Char) : List Char :=
  ((l.dropWhile jsWhitespace).reverse.dropWhile jsWhitespace).reverse

/-- JS `str.replace(/c/g, r)` for a single literal character `c`. -/
def replaceChar (c : Char) (r : List Char) : List Char → List Char
  | [] => []
  | x :: xs => if x = c then r ++ replaceChar c r xs else x :: replaceChar c r xs

/-- `String.prototype.split('\n')`, with the first segment accumulated in `acc`. -/
def splitNlAux (acc : List Char) : List Char → List (List Char)
  | [] => [acc.reverse]
  | c :: cs => if c = '\n' then acc.reverse :: splitNlAux [] cs else splitNlAux (c :: acc) cs

/-- JS `markdown.split('\n')`. -/
def splitNl (l : List Char) : List (List Char) := splitNlAux [] l

/-- JS `Array.prototype.join('\n')`. -/
def joinNl : List (List Char) → List Char
  | [] => []
  | [l] => l
  | l :: ls => l ++ '\n' :: joinNl ls

/-- Scan up to the first occurrence of `stop`, returning the characters
before it and the remainder after it (the behaviour of a greedy
`[^stop]*` followed by the literal `stop`). -/
def takeTo (stop : Char) : List Char → Option (List Char × List Char)
  | [] => none
  | c :: cs =>
    if c = stop then some ([], cs)
    else (takeTo stop cs).map (fun p => (c :: p.1, p.2))

/-!  ### Inline span parser (`src/parsers/inlineParser.js`)  -/

/-- Escaping applied to extracted inline-code content:
`.replace(/&/g,'&amp;').replace(/</g,'&lt;').replace(/>/g,'&gt;')`. -/
def escapeCode (l : List Char) : List Char :=
  replaceChar '>' "&gt;".data (replaceChar '<' "&lt;".data (replaceChar '&' "&amp;".data l))

/-- The literal stem of the code placeholder token. -/
def phStem : List Char := "__DABIR_CODE_PLACEHOLDER_".data

/-- `__DABIR_CODE_PLACEHOLDER_${n}__`. -/
def placeholder (n : Nat) : List Char := phStem ++ Nat.toDigits 10 n ++ "__".data

/-- Step 1 of `parseInline`: `text.replace(/`([^`]+?)`/g, …)`.
At a backtick, look for the next backtick; a non-empty gap is a match
(the gap is escaped and pushed, a placeholder is emitted); an empty gap
or no closing backtick makes the regex engine emit the backtick
literally and resume scanning at the next character. -/
def extractCodeF (blocksLen : Nat) : Nat → List Char → List Char × List (List Char)
  | 0, l => (l, [])
  | _ + 1, [] => ([], [])
  | f + 1, c :: cs =>
    if c = backtick then
      match takeTo backtick cs with
      | some (content, rest) =>
        if content.isEmpty then
          let r := extractCodeF blocksLen f cs
          (c :: r.1, r.2)
        else
          let r := extractCodeF (blocksLen + 1) f rest
          (placeholder blocksLen ++ r.1, escapeCode content :: r.2)
      | none =>
        let r := extractCodeF blocksLen f cs
        (c :: r.1, r.2)
    else
      let r := extractCodeF blocksLen f cs
      (c :: r.1, r.2)

/-- Extract inline-code spans: returns the placeholder-substituted text
and the list of escaped code contents (`codeBlocks`). -/
def extractCode (l : List Char) : List Char × List (List Char) :=
  extractCodeF 0 l.length l

/-- One attempt of `/\[([^\]]+)\]\(([^)]+)\)/` starting just after a `[`:
greedy `[^\]]+` runs to the first `]`, then `(`, then `[^)]+` to the
first `)`.  Returns `(text, href, rest)`. -/
def linkAttempt (cs : List Char) : Option (List Char × List Char × List Char) :=
  match takeTo ']' cs with
  | none => none
  | some (txt, rest1) =>
    if txt.isEmpty then none
    else
      match rest1 with
      | '(' :: rest2 =>
        match takeTo ')' rest2 with
        | none => none
        | some (href, rest3) => if href.isEmpty then none else some (txt, href, rest3)
      | _ => none

/-- Link substitution
`.replace(/\[([^\]]+)\]\(([^)]+)\)/g, '<a href="$2" target="_blank">$1</a>')`. -/
def linkPassF : Nat → List Char → List Char
  | 0, l => l
  | _ + 1, [] => []
  | f + 1, c :: cs =>
    if c = '[' then
      match linkAttempt cs with
      | some (txt, href, rest) =>
        "<a href=\"".data ++ href ++ "\" target=\"_blank\">".data ++ txt ++
          "</a>".data ++ linkPassF f rest
      | none => c :: linkPassF f cs
    else c :: linkPassF f cs

def linkPass (l : List Char) : List Char := linkPassF l.length l

/-- Find the non-greedy close for `dd(.+?)dd`: scanning the content
region (first character already consumed by `pairClose`), prefer a
close (two consecutive `d`) at each position, treat anything else as
content, and fail on a newline (`.` does not match `\n`). -/
def pairCloseAux (d : Char) : List Char → Option (List Char × List Char)
  | [] => none
  | c :: cs =>
    if isLineTerminator c then none
    else if c = d ∧ cs.head? = some d then some ([], cs.tail)
    else (pairCloseAux d cs).map (fun p => (c :: p.1, p.2))

/-- `(.+?)` needs at least one character, so the first character after
the opening delimiter is always content. -/
def pairClose (d : Char) : List Char → Option (List Char × List Char)
  | [] => none
  | c :: cs =>
    if isLineTerminator c then none
    else (pairCloseAux d cs).map (fun p => (c :: p.1, p.2))

/-- Generic `/dd(.+?)dd/g` substitution (bold `**`, strikethrough `~~`,
highlight `==`): on a failed attempt the engine emits one character and
retries at the next position. -/
def pairPassF (d : Char) (pre post : List Char) : Nat → List Char → List Char
  | 0, l => l
  | _ + 1, [] => []
  | f + 1, c :: cs =>
    if c = d ∧ cs.head? = some d then
      match pairClose d cs.tail with
      | some (content, rest) => pre ++ content ++ post ++ pairPassF d pre post f rest
      | none => c :: pairPassF d pre post f cs
    else c :: pairPassF d pre post f cs

def pairPass (d : Char) (pre post : List Char) (l : List Char) : List Char :=
  pairPassF d pre post l.length l

/-- Close search for italic `/(?<!\*)\*(.+?)\*(?!\*)/`: a `*` closes only
when the next character is not `*`; otherwise it is swallowed as
content (backtracking of the non-greedy `.+?`). -/
def emCloseAux : List Char → Option (List Char × List Char)
  | [] => none
  | c :: cs =>
    if isLineTerminator c then none
    else if c = '*' ∧ cs.head? ≠ some '*' then some ([], cs)
    else (emCloseAux cs).map (fun p => (c :: p.1, p.2))

/-- First content character is forced (`.+?` is non-empty). -/
def emClose : List Char → Option (List Char × List Char)
  | [] => none
  | c :: cs =>
    if isLineTerminator c then none
    else (emCloseAux cs).map (fun p => (c :: p.1, p.2))

/-- Italic substitution `.replace(/(?<!\*)\*(.+?)\*(?!\*)/g, '<em>$1</em>')`.
`prevStar` tracks whether the character before the current scan position
is `*` (the lookbehind is evaluated against the input string). -/
def emPassF : Nat → Bool → List Char → List Char
  | 0, _, l => l
  | _ + 1, _, [] => []
  | f + 1, prevStar, c :: cs =>
    if c = '*' ∧ prevStar = false then
      match emClose cs with
      | some (content, rest) => "<em>".data ++ content ++ "</em>".data ++ emPassF f true rest
      | none => c :: emPassF f true cs
    else c :: emPassF f (c = '*') cs

def emPass (l : List Char) : List Char := emPassF l.length false l

/-- Maximal leading run of ASCII digits (`\d+`, greedy). -/
def digitSplit : List Char → List Char × List Char
  | [] => ([], [])
  | c :: cs =>
    if c.isDigit then
      let r := digitSplit cs
      (c :: r.1, r.2)
    else ([], c :: cs)

/-- `parseInt(d, 10)` on a digit run. -/
def digitsVal (l : List Char) : Nat := l.foldl (fun a c => a * 10 + (c.toNat - 48)) 0

/-- One attempt of `/__DABIR_CODE_PLACEHOLDER_(\d+)__/` at the current
position.  `codeBlocks[n]` out of range interpolates as the string
`"undefined"` in JS. -/
def restoreAttempt (blocks : List (List Char)) (l : List Char) : Option (List Char × List Char) :=
  if phStem.isPrefixOf l then
    let rest0 := l.drop phStem.length
    let ds := (digitSplit rest0).1
    let rest1 := (digitSplit rest0).2
    if ds.isEmpty then none
    else if "__".data.isPrefixOf rest1 then
      some ("<code>".data ++ blocks.getD (digitsVal ds) "undefined".data ++ "</code>".data,
        rest1.drop 2)
    else none
  else none

/-- Step 3 of `parseInline`: restore the placeholders as `<code>` markup. -/
def restoreF (blocks : List (List Char)) : Nat → List Char → List Char
  | 0, l => l
  | _ + 1, [] => []
  | f + 1, c :: cs =>
    match restoreAttempt blocks (c :: cs) with
    | some (rep, rest) => rep ++ restoreF blocks f rest
    | none => c :: restoreF blocks f cs

def restorePass (blocks : List (List Char)) (l : List Char) : List Char :=
  restoreF blocks l.length l

/-- The `try` body of `parseInline`: extract code spans, then apply the
link, bold, italic, strikethrough and highlight substitutions in source
order, then restore the code spans. -/
def parseInlineBody (t : List Char) : List Char :=
  let ec := extractCode t
  restorePass ec.2
    (pairPass '=' "<mark>".data "</mark>".data
      (pairPass '~' "<del>".data "</del>".data
        (emPass
          (pairPass '*' "<strong>".data "</strong>".data
            (linkPass ec.1)))))

/-- The fail-safe wrapper structure of `parseInline`: falsy input
short-circuits to the empty string before the pipeline runs, and an
exception thrown by the body is caught and converted to the original
text.  The body is a parameter so the wrapper's guarantees can be
stated for any body. -/
def parseInlineGuarded (body : List Char → Except (List Char) (List Char))
    (t : List Char) : List Char :=
  if t.isEmpty then []
  else
    match body t with
    | .ok r => r
    | .error _ => t

/-- `parseInline` from `src/parsers/inlineParser.js`.  Its body is a
total function (every regex substitution is), so the catch branch is
unreachable and the function is the guarded wrapper applied to the
always-succeeding body. -/
def parseInline (t : List Char) : List Char :=
  parseInlineGuarded (fun s => .ok (parseInlineBody s)) t

/-!  ### Block parser (`src/parsers/blockParser.js`)

`parseBlock(lines, currentIndex)` only ever reads `lines[currentIndex]`
and following lines, so it is embedded as a function of the suffix
`lines.drop currentIndex`, returning the produced html together with
the number of consumed lines; the JS `lastIndex` is
`currentIndex + consumed - 1` (evaluated in `Int`, so a list run of
zero matched lines yields `currentIndex - 1`, which makes the document
loop spin forever — see `parseLoop`). -/

/-- Maximal run of a leading character. -/
def countLeading (c : Char) : List Char → Nat
  | [] => 0
  | x :: xs => if x = c then countLeading c xs + 1 else 0

/-- `(.*)`: the rest of the line up to a line terminator (`.` matches
any character except LF, CR, LS, PS). -/
def lineContent (l : List Char) : List Char := l.takeWhile (fun c => !(isLineTerminator c))

/-- Eastern Arabic-Indic digits `۰`-`۹` (U+06F0–U+06F9), as in the
character class `[\d۰-۹]`. -/
def isPersianDigit (c : Char) : Bool := 0x6F0 ≤ c.toNat && c.toNat ≤ 0x6F9

def isListDigit (c : Char) : Bool := c.isDigit || isPersianDigit c

/-- `trimmed.match(/^([-*]|[\d۰-۹]+\.) (.*)/)`: returns (marker, content). -/
def listItemMatch (t : List Char) : Option (List Char × List Char) :=
  match t with
  | '-' :: ' ' :: rest => some (['-'], lineContent rest)
  | '*' :: ' ' :: rest => some (['*'], lineContent rest)
  | _ =>
    let ds := t.takeWhile isListDigit
    if ds.isEmpty then none
    else
      match t.drop ds.length with
      | '.' :: ' ' :: rest => some (ds ++ ['.'], lineContent rest)
      | _ => none

/-- `/^(\s*[-*]|\s*[\d۰-۹]+\.) /.test(line)`: the list-block trigger in
`parseBlock`. -/
def listTrigger (line : List Char) : Bool :=
  (listItemMatch (line.dropWhile jsWhitespace)).isSome

/-- `/[-*]/.test(match[1])`: the marker decides `ul` vs `ol`. -/
inductive LType where
  | ul
  | ol
deriving DecidableEq, Repr

def ltag : LType → List Char
  | .ul => "ul".data
  | .ol => "ol".data

def markerType (m : List Char) : LType :=
  if m.any (fun c => c = '-' || c = '*') then .ul else .ol

/-- One frame of the explicit list stack `{ type, indent }`. -/
structure LFrame where
  type : LType
  indent : Nat
deriving DecidableEq, Repr

/-- The pop loop
`while (stack.length > 0 && indent < stack[stack.length-1].indent) html += closing`. -/
def popFrames (indent : Nat) : List LFrame → List Char × List LFrame
  | [] => ([], [])
  | fr :: st =>
    if indent < fr.indent then
      let r := popFrames indent st
      ("</".data ++ ltag fr.type ++ ">".data ++ r.1, r.2)
    else ([], fr :: st)

/-- `content.startsWith('[ ] ') || content.startsWith('[x] ')` — the
full-document checklist marker (literal lowercase `x`). -/
def fullChecklistMarker (content : List Char) : Bool :=
  "[ ] ".data.isPrefixOf content || "[x] ".data.isPrefixOf content

/-- The shared `<li class="checklist-item …">…</li>` template (identical
in `blockParser.js` and `liveParser.js`). -/
def checklistLi (checked : Bool) (inner : List Char) : List Char :=
  "<li class=\"checklist-item".data ++ (if checked then " checked".data else []) ++
  "\"><div class=\"checklist-content-wrapper\"><input type=\"checkbox\"".data ++
  (if checked then " checked".data else []) ++
  "><span>".data ++ inner ++ "</span></div></li>".data

/-- `<${type}${classAttr}>`. -/
def openTag (type : LType) (isCk : Bool) : List Char :=
  "<".data ++ ltag type ++ (if isCk then " class=\"checklist\"".data else []) ++ ">".data

/-- The `<li>` emitted for one list line. -/
def listLi (content : List Char) : List Char :=
  if fullChecklistMarker content then
    checklistLi ("[x] ".data.isPrefixOf content) (parseInline (content.drop 4))
  else "<li>".data ++ parseInline content ++ "</li>".data

/-- The container-opening condition
`stack.length === 0 || (indent > top.indent && stack.length < MAX_DEPTH) ||
(stack.length > 0 && type !== top.type)` with `MAX_DEPTH = 5`. -/
def listOpenCond (stack : List LFrame) (indent : Nat) (type : LType) : Bool :=
  match stack with
  | [] => true
  | top :: _ => (decide (indent > top.indent) && decide (stack.length < 5)) || decide (type ≠ top.type)

/-- Processing of one matched list line against the current stack
(after the pop loop): possibly close/open a container, then emit the
item.  Returns the emitted html and the new stack. -/
def listStep (stack : List LFrame) (indent : Nat) (type : LType) (content : List Char) :
    List Char × List LFrame :=
  let isCk := fullChecklistMarker content
  let opened :=
    if listOpenCond stack indent type then
      match stack with
      | top :: rest =>
        if type ≠ top.type then
          ("</".data ++ ltag top.type ++ ">".data ++ openTag type isCk,
            { type := type, indent := indent } :: rest)
        else (openTag type isCk, { type := type, indent := indent } :: stack)
      | [] => (openTag type isCk, [{ type := type, indent := indent }])
    else ([], stack)
  (opened.1 ++ listLi content, opened.2)

/-- `while (stack.length > 0) html += closing` after the main loop. -/
def closeAll : List LFrame → List Char
  | [] => []
  | fr :: st => "</".data ++ ltag fr.type ++ ">".data ++ closeAll st

/-- The main loop of `processListBlock`, over the suffix of lines
starting at `startIndex`; returns (html, number of consumed lines). -/
def processListAux (stack : List LFrame) : List (List Char) → List Char × Nat
  | [] => (closeAll stack, 0)
  | line :: rest =>
    match listItemMatch (jsTrim line) with
    | none => (closeAll stack, 0)
    | some (marker, content) =>
      let indent := (line.takeWhile jsWhitespace).length
      let pop := popFrames indent stack
      let step := listStep pop.2 indent (markerType marker) content
      let r := processListAux step.2 rest
      (pop.1 ++ step.1 ++ r.1, r.2 + 1)

/-- `processListBlock(lines, startIndex)` on the suffix
`lines.drop startIndex`; JS returns `lastIndex = startIndex + consumed - 1`. -/
def processListBlock (lines : List (List Char)) : List Char × Nat :=
  processListAux [] lines

/-- `^(#{1,4}) (.*)`: greedy `#{1,4}` then a space; a run of five or
more `#` can never backtrack into a match because the character after a
shorter run is still `#`. -/
def headingMatch (line : List Char) : Option (Nat × List Char) :=
  let k := countLeading '#' line
  if 1 ≤ k ∧ k ≤ 4 then
    match line.drop k with
    | ' ' :: rest => some (k, lineContent rest)
    | _ => none
  else none

def headingHtml (k : Nat) (inner : List Char) : List Char :=
  "<h".data ++ Nat.toDigits 10 k ++ ">".data ++ inner ++ "</h".data ++ Nat.toDigits 10 k ++ ">".data

/-- `^!\[([^\]]*)\]\(([^)]+)\)$` — returns (alt, src). -/
def imageMatch (line : List Char) : Option (List Char × List Char) :=
  match line with
  | c1 :: c2 :: rest =>
    if c1 = '!' ∧ c2 = '[' then
      match takeTo ']' rest with
      | none => none
      | some (alt, rest1) =>
        match rest1 with
        | c3 :: rest2 =>
          if c3 = '(' then
            match takeTo ')' rest2 with
            | none => none
            | some (src, rest3) =>
              if src.isEmpty then none
              else if rest3.isEmpty then some (alt, src) else none
          else none
        | _ => none
    else none
  | _ => none

/-- `<figure><img …>${figcaption}</figure>` (identical template in the
block and live parsers). -/
def figureHtml (alt src : List Char) : List Char :=
  "<figure><img src=\"".data ++ src ++ "\" alt=\"".data ++ alt ++ "\">".data ++
  (if alt.isEmpty then [] else "<figcaption>".data ++ alt ++ "</figcaption>".data) ++
  "</figure>".data

/-- One blockquote line: `<div>${parseInline(line.substring(2)) || '<br>'}</div>`. -/
def bqLine (l : List Char) : List Char :=
  let p := parseInline (l.drop 2)
  "<div>".data ++ (if p.isEmpty then "<br>".data else p) ++ "</div>".data

/-- `lines[i].trim().startsWith('```')`. -/
def fenceLine (l : List Char) : Bool := "```".data.isPrefixOf (jsTrim l)

/-- The copy-affordance markup emitted with every code block. -/
def copyButton : List Char :=
  ("<button class=\"copy-code-btn\" title=\"رونوشت کد\"><svg xmlns=\"http://www.w3.org/2000/svg\" width=\"16\" height=\"16\" fill=\"currentColor\" viewBox=\"0 0 16 16\"><path d=\"M4 1.5H3a2 2 0 0 0-2 2V14a2 2 0 0 0 2 2h10a2 2 0 0 0 2-2V3.5a2 2 0 0 0-2-2h-1v1h1a1 1 0 0 1 1 1V14a1 1 0 0 1-1 1H3a1 1 0 0 1-1-1V3.5a1 1 0 0 1 1-1h1v-1z\"/><path d=\"M9.5 1a.5.5 0 0 1 .5.5v1a.5.5 0 0 1-.5.5h-3a.5.5 0 0 1-.5-.5v-1a.5.5 0 0 1 .5-.5h3zm-3-1A1.5 1.5 0 0 0 5 1.5v1A1.5 1.5 0 0 0 6.5 4h3A1.5 1.5 0 0 0 11 2.5v-1A1.5 1.5 0 0 0 9.5 0h-3z\"/></svg><span>رونوشت</span></button>").data

/-- `.replace(/</g, "&lt;").replace(/>/g, "&gt;")` — fenced-code
escaping (`<` and `>` only; `&` is left untouched). -/
def codeEscape (l : List Char) : List Char :=
  replaceChar '>' "&gt;".data (replaceChar '<' "&lt;".data l)

def codeBlockHtml (escaped : List Char) : List Char :=
  "<div class=\"code-block-wrapper\">".data ++ copyButton ++ "<pre><code>".data ++
    escaped ++ "</code></pre></div>".data

/-- `parseBlock` on the suffix of lines starting at the current index.
Rule order: heading, rule, blockquote, image, list, code fence.  A JS
call with `currentIndex` out of range throws on
`undefined.match` and the catch converts it to `null`, hence `[] ↦ none`. -/
def parseBlock : List (List Char) → Option (List Char × Nat)
  | [] => none
  | line :: rest =>
    match headingMatch line with
    | some (k, content) => some (headingHtml k (parseInline content), 1)
    | none =>
      if jsTrim line = "---".data then some ("<hr>".data, 1)
      else if "> ".data.isPrefixOf line then
        let qs := (line :: rest).takeWhile (fun l => "> ".data.isPrefixOf l)
        some ("<blockquote>".data ++ (qs.map bqLine).flatten ++ "</blockquote>".data, qs.length)
      else
        match imageMatch line with
        | some (alt, src) => some (figureHtml alt src, 1)
        | none =>
          if listTrigger line then some (processListBlock (line :: rest))
          else if fenceLine line then
            let body := rest.takeWhile (fun l => !(fenceLine l))
            some (codeBlockHtml (codeEscape ((body.map (fun l => l ++ ['\n'])).flatten)),
              body.length + 2)
          else none

/-!  ### Live line parser (`src/parsers/liveParser.js`)  -/

/-- `.replace(/\s$/, '')`: remove one trailing whitespace character. -/
def stripOneTrailingWs (l : List Char) : List Char :=
  match l.reverse with
  | c :: rest => if jsWhitespace c then rest.reverse else l
  | [] => l

/-- `line.endsWith(' ')`. -/
def endsWithSpace (l : List Char) : Bool :=
  match l.reverse with
  | c :: _ => c = ' '
  | [] => false

/-- `listContent.match(/^\[([xX ])\]\s?/)`: the live checklist marker —
`x` case-insensitive, with an optional (greedy `\s?`) single whitespace
character after `]`.  Returns the marker character and the text after
the match. -/
def liveChecklistMatch (content : List Char) : Option (Char × List Char) :=
  match content with
  | '[' :: m :: ']' :: rest =>
    if m = 'x' || m = 'X' || m = ' ' then
      match rest with
      | c :: rest2 => if jsWhitespace c then some (m, rest2) else some (m, rest)
      | [] => some (m, [])
    else none
  | _ => none

/-- `\w` = `[A-Za-z0-9_]`. -/
def isWordChar (c : Char) : Bool := c.isUpper || c.isLower || c.isDigit || c = '_'

/-- `line.trim().match(/^```(\w*)$/)`. -/
def liveFence (line : List Char) : Bool :=
  match jsTrim line with
  | a :: b :: c :: rest =>
    a = backtick && b = backtick && c = backtick && rest.all isWordChar
  | _ => false

/-- The empty code-block shell emitted for a fence-opening line
(`&#8203;` is a zero-width-space placeholder). -/
def liveCodeShell : List Char :=
  "<div class=\"code-block-wrapper\">".data ++ copyButton ++
  "<pre><code>&#8203;</code></pre></div>".data

/-- `parseLiveBlock(line)` from `src/parsers/liveParser.js`.  Rule
order: heading, rule, image, list/checklist, blockquote, code-fence
opening.  Returns `none` where the JS returns `null`. -/
def parseLiveBlock (line : List Char) : Option (List Char) :=
  match headingMatch line with
  | some (k, content) =>
    some (headingHtml k
      (parseInline (stripOneTrailingWs content) ++ (if endsWithSpace line then [' '] else [])))
  | none =>
    if jsTrim line = "---".data then some "<hr>".data
    else
      match imageMatch line with
      | some (alt, src) => some (figureHtml alt src)
      | none =>
        match listItemMatch (line.dropWhile jsWhitespace) with
        | some (marker, content) =>
          match liveChecklistMatch content with
          | some (m, contentText) =>
            some ("<ul class=\"checklist\">".data ++
              checklistLi (m = 'x' || m = 'X') (parseInline contentText) ++ "</ul>".data)
          | none =>
            some ("<".data ++ ltag (markerType marker) ++ "><li>".data ++ parseInline content ++
              "</li></".data ++ ltag (markerType marker) ++ ">".data)
        | none =>
          if "> ".data.isPrefixOf line then
            some ("<blockquote>".data ++ bqLine line ++ "</blockquote>".data)
          else if liveFence line then some liveCodeShell
          else none

/-!  ### Document parser (`src/parsers/markdownParser.js`)

The plugin registry is empty by default (`plugins: []` in
`core/editor.js`), so the plugin hook in the line loop is a no-op and
is not modelled.  The `for` loop sets `i = result.lastIndex; i++`; when
a block consumes zero lines (a list trigger whose trimmed line no
longer matches the item pattern, e.g. `"- "`), `lastIndex` is
`currentIndex - 1` and the loop re-processes the same line forever.
That divergence is modelled by returning `none`. -/

/-- `flushParagraph`. -/
def flushPara (buf : List (List Char)) : List Char :=
  if buf.isEmpty then []
  else "<div>".data ++ parseInline (joinNl buf) ++ "</div>".data

/-- The line loop of `MarkdownParser.parse`.  Fuel is the number of
remaining lines; every non-divergent iteration consumes at least one
line, so `fuel = lines.length` never runs out. -/
def parseLoop : Nat → List (List Char) → List (List Char) → List Char → Option (List Char)
  | _, [], buf, acc => some (acc ++ flushPara buf)
  | 0, _ :: _, _, _ => none
  | f + 1, line :: rest, buf, acc =>
    match parseBlock (line :: rest) with
    | some (h, consumed) =>
      if consumed = 0 then none
      else parseLoop f ((line :: rest).drop consumed) [] (acc ++ flushPara buf ++ h)
    | none =>
      if (jsTrim line).isEmpty then parseLoop f rest [] (acc ++ flushPara buf)
      else parseLoop f rest (buf ++ [line]) acc

/-- The empty-paragraph caret-host placeholder. -/
def emptyPlaceholder : List Char := "<div><br></div>".data

/-- `MarkdownParser.parse(markdown)`.  `none` models the infinite loop
described above; every other behaviour of the source is a returned
string. -/
def markdownParse (md : List Char) : Option (List Char) :=
  if md.isEmpty then some emptyPlaceholder
  else
    match parseLoop (splitNl md).length (splitNl md) [] [] with
    | none => none
    | some h => some (if h.isEmpty then emptyPlaceholder else h)

/-!  ### Markup-to-Markdown serializer (`HtmlParser` in the source)

The editor surface is a DOM tree; it is embedded as `HNode` (text node
or element with tag name, class list, attributes and children).
`img.src`/`img.alt` are modelled as the corresponding attribute values
(browser URL resolution is outside the engine).  The plugin registry is
empty by default, so the `default:` case of the switch returns the
concatenated child markdown. -/

inductive HNode where
  | text (s : List Char)
  | elem (tag : List Char) (classes : List (List Char))
      (attrs : List (List Char × List Char)) (children : List HNode)

/-- `getAttribute(name)`. -/
def getAttr (attrs : List (List Char × List Char)) (name : List Char) : Option (List Char) :=
  (attrs.find? (fun p => p.1 == name)).map (fun p => p.2)

/-- An element's attribute as reflected by the DOM IDL (missing → ""). -/
def elemAttr (n : HNode) (name : List Char) : List Char :=
  match n with
  | .text _ => []
  | .elem _ _ attrs _ => (getAttr attrs name).getD []

mutual
/-- `node.textContent`. -/
def textContent : HNode → List Char
  | .text s => s
  | .elem _ _ _ ch => textContentList ch
def textContentList : List HNode → List Char
  | [] => []
  | n :: ns => textContent n ++ textContentList ns
end

mutual
/-- `node.querySelector(tag)`: first descendant with the tag, in
document order (the node itself is not considered). -/
def findDesc (tag : List Char) : HNode → Option HNode
  | .text _ => none
  | .elem _ _ _ ch => findDescList tag ch
def findDescList (tag : List Char) : List HNode → Option HNode
  | [] => none
  | .text _ :: ns => findDescList tag ns
  | .elem t c a ch :: ns =>
    if t = tag then some (.elem t c a ch)
    else
      match findDescList tag ch with
      | some m => some m
      | none => findDescList tag ns
end

/-- `.replace(/\n$/, '')`: strip one trailing newline. -/
def stripTrailingNl (l : List Char) : List Char :=
  match l.reverse with
  | '\n' :: rest => rest.reverse
  | _ => l

/-- The `case 'PRE':` result. -/
def preMarkdown (n : HNode) : List Char :=
  "```\n".data ++ stripTrailingNl (textContent n) ++ "\n```\n\n".data

mutual
/-- `_convertNodeToMarkdown(node)`.  `inPre` tracks whether an ancestor
is a `<pre>` (the JS consults `node.closest('pre')`). -/
def convertNode (inPre : Bool) : HNode → List Char
  | .text s => s
  | .elem tag cls attrs children =>
    let cpre := inPre || tag = "PRE".data
    let childMd := convertNodes cpre children
    if tag = "H1".data then "# ".data ++ childMd ++ "\n\n".data
    else if tag = "H2".data then "## ".data ++ childMd ++ "\n\n".data
    else if tag = "H3".data then "### ".data ++ childMd ++ "\n\n".data
    else if tag = "H4".data then "#### ".data ++ childMd ++ "\n\n".data
    else if tag = "STRONG".data then "**".data ++ childMd ++ "**".data
    else if tag = "EM".data then "*".data ++ childMd ++ "*".data
    else if tag = "DEL".data then "~~".data ++ childMd ++ "~~".data
    else if tag = "MARK".data then "==".data ++ childMd ++ "==".data
    else if tag = "CODE".data then
      if inPre then childMd else backtick :: childMd ++ [backtick]
    else if tag = "A".data then
      "[".data ++ childMd ++ "](".data ++ (getAttr attrs "href".data).getD "null".data ++ ")".data
    else if tag = "BR".data then "\n".data
    else if tag = "HR".data then "\n---\n\n".data
    else if tag = "DIV".data || tag = "P".data then
      if cls.contains "code-block-wrapper".data then
        match findDescList "PRE".data children with
        | some pre => preMarkdown pre
        | none => []
      else childMd ++ "\n\n".data
    else if tag = "BLOCKQUOTE".data then
      (joinNl (((convertTrimmed cpre children).map splitNl).flatten.map
        (fun l => "> ".data ++ l))) ++ "\n\n".data
    else if tag = "FIGURE".data then
      let img := findDescList "IMG".data children
      let cap := findDescList "FIGCAPTION".data children
      let alt :=
        match cap with
        | some c => textContent c
        | none => match img with | some i => elemAttr i "alt".data | none => []
      "![".data ++ alt ++ "](".data ++
        (match img with | some i => elemAttr i "src".data | none => []) ++ ")\n\n".data
    else if tag = "PRE".data then preMarkdown (.elem tag cls attrs children)
    else childMd
def convertNodes (inPre : Bool) : List HNode → List Char
  | [] => []
  | n :: ns => convertNode inPre n ++ convertNodes inPre ns
/-- The `BLOCKQUOTE` case's `.map(child => recurse(child).trim())`. -/
def convertTrimmed (inPre : Bool) : List HNode → List (List Char)
  | [] => []
  | n :: ns => jsTrim (convertNode inPre n) :: convertTrimmed inPre ns
end

/-- `.replace(/\n{3,}/g, '\n\n')`: collapse every maximal run of three
or more newlines to exactly two. -/
def collapseNlF : Nat → List Char → List Char
  | 0, l => l
  | _ + 1, [] => []
  | f + 1, c :: cs =>
    if c = '\n' then
      let run := cs.takeWhile (fun x => x == '\n')
      if 2 ≤ run.length then '\n' :: '\n' :: collapseNlF f (cs.drop run.length)
      else c :: collapseNlF f cs
    else c :: collapseNlF f cs

def collapseNl (l : List Char) : List Char := collapseNlF l.length l

/-- `HtmlParser.parse(element)`: convert the tree, collapse newline
runs, trim. -/
def htmlParserParse (root : HNode) : List Char :=
  jsTrim (collapseNl (convertNode false root))

/-!  Standard browser HTML serialization of an `HNode` tree, used to
tie a concrete tree to the HTML string produced by the document parser
(the rendering collaborator turns that string into the tree whose
serialization it is). -/

def lowerTag (t : List Char) : List Char := t.map Char.toLower

def isVoidTag (t : List Char) : Bool :=
  t = "BR".data || t = "HR".data || t = "IMG".data || t = "INPUT".data

def joinSpace : List (List Char) → List Char
  | [] => []
  | [c] => c
  | c :: cs => c ++ ' ' :: joinSpace cs

def renderAttrs : List (List Char × List Char) → List Char
  | [] => []
  | (n, v) :: rest => ' ' :: lowerTag n ++ "=\"".data ++ v ++ "\"".data ++ renderAttrs rest

def renderClasses (cls : List (List Char)) : List Char :=
  if cls.isEmpty then [] else " class=\"".data ++ joinSpace cls ++ "\"".data

mutual
def renderNode : HNode → List Char
  | .text s => escapeCode s
  | .elem tag cls attrs ch =>
    "<".data ++ lowerTag tag ++ renderClasses cls ++ renderAttrs attrs ++ ">".data ++
    (if isVoidTag tag then [] else renderNodes ch ++ "</".data ++ lowerTag tag ++ ">".data)
def renderNodes : List HNode → List Char
  | [] => []
  | n :: ns => renderNode n ++ renderNodes ns
end

/-!  ### Auxiliary definitions used by the statements below  -/

/-- The sequence of list stacks reached while `processListBlock`
consumes lines: the stack before each consumed line, and the final
stack.  Mirrors `processListAux` step for step. -/
def processListStacks (stack : List LFrame) : List (List Char) → List (List LFrame)
  | [] => [stack]
  | line :: rest =>
    match listItemMatch (jsTrim line) with
    | none => [stack]
    | some (marker, content) =>
      let indent := (line.takeWhile jsWhitespace).length
      let pop := popFrames indent stack
      let step := listStep pop.2 indent (markerType marker) content
      stack :: processListStacks step.2 rest

/-- Substring test: `needle` occurs contiguously in the list. -/
def hasSub (needle : List Char) : List Char → Bool
  | [] => needle.isEmpty
  | c :: t => needle.isPrefixOf (c :: t) || hasSub needle t

/-- Per-character specification of the fenced-code escaping: `<` and
`>` are rewritten, everything else (in particular `&`) is kept. -/
def escMap (c : Char) : List Char :=
  if c = '<' then "&lt;".data else if c = '>' then "&gt;".data else [c]

/-!  ### Theorems  -/

theorem popFrames_length_le (i : Nat) (st : List LFrame) :
    (popFrames i st).2.length ≤ st.length := by
  induction st with
  | nil => simp [popFrames]
  | cons fr st ih =>
    unfold popFrames
    by_cases h : i < fr.indent
    · simp only [h, if_true]
      exact le_trans ih (Nat.le_succ _)
    · simp [h]

theorem listStep_stack_le (stack : List LFrame) (i : Nat) (ty : LType) (c : List Char)
    (h : stack.length ≤ 5) : (listStep stack i ty c).2.length ≤ 5 := by
  by_cases hc : listOpenCond stack i ty = true
  · cases stack with
    | nil => simp [listStep, hc]
    | cons top rest =>
      by_cases hty : ty = top.type
      · subst hty
        have hc' := hc
        unfold listOpenCond at hc'
        simp at hc'
        simp [listStep, hc]
        omega
      · simp [listStep, hc, hty]
        simpa using h
  · simp only [Bool.not_eq_true] at hc
    simp [listStep, hc, h]

theorem processListStacks_bounded_aux (ls : List (List Char)) :
    ∀ stack : List LFrame, stack.length ≤ 5 →
      ∀ s ∈ processListStacks stack ls, s.length ≤ 5 := by
  induction ls with
  | nil =>
    intro stack h s hs
    simp only [processListStacks, List.mem_singleton] at hs
    exact hs ▸ h
  | cons line rest ih =>
    intro stack h s hs
    unfold processListStacks at hs
    cases hml : listItemMatch (jsTrim line) with
    | none => rw [hml] at hs; simp only [List.mem_singleton] at hs; exact hs ▸ h
    | some mc =>
      rw [hml] at hs
      simp only [List.mem_cons] at hs
      rcases hs with rfl | hs
      · exact h
      · exact ih _ (listStep_stack_le _ _ _ _ (le_trans (popFrames_length_le _ _) h)) s hs

/-- C3: the list algorithm's stack never holds more than five frames —
no more than five list containers are ever open at once — and a line
indented past the fifth level (here indent 8 after single-space
indents, simulating level 9) is emitted as an item of the deepest open
level instead of being rejected or dropped. -/
theorem C3_list_depth_clamp :
    (∀ (lines : List (List Char)) (s : List LFrame),
      s ∈ processListStacks [] lines → s.length ≤ 5) ∧
    processListBlock
      ["- a".data, " - b".data, "  - c".data, "   - d".data, "    - e".data,
        "        - f".data] =
      (("<ul><li>a</li><ul><li>b</li><ul><li>c</li><ul><li>d</li><ul><li>e</li><li>f</li>" ++
        "</ul></ul></ul></ul></ul>").data, 6) :=
  ⟨fun lines s hs => processListStacks_bounded_aux lines [] (by simp) s hs, by decide⟩

/-- C3 witness: a concrete run reaching a non-trivial stack. -/
theorem C3_witness :
    ([⟨LType.ul, 0⟩] : List LFrame) ∈ processListStacks [] ["- a".data] ∧
    ([(⟨LType.ul, 0⟩ : LFrame)] : List LFrame).length ≤ 5 :=
  ⟨by decide, C3_list_depth_clamp.1 ["- a".data] [⟨LType.ul, 0⟩] (by decide)⟩

/-- C6: `parseInline` is fail-safe.  The guarded wrapper (the
`if (!text) … try/catch` skeleton of the source) returns the empty
string for empty input without invoking the body, returns the original
text unchanged whenever the body fails, and — since it returns a plain
value for every body — never propagates an exception; `parseInline`
itself is this wrapper applied to its (total) pipeline body. -/
theorem C6_parseInline_fail_safe :
    (∀ body : List Char → Except (List Char) (List Char), parseInlineGuarded body [] = []) ∧
    (∀ (body : List Char → Except (List Char) (List Char)) (t e : List Char),
      body t = Except.error e → parseInlineGuarded body t = t) ∧
    (∀ t : List Char, parseInline t = parseInlineGuarded (fun s => Except.ok (parseInlineBody s)) t) := by
  refine ⟨fun _ => rfl, ?_, fun _ => rfl⟩
  intro body t e h
  by_cases ht : t = []
  · subst ht; rfl
  · simp [parseInlineGuarded, List.isEmpty_eq_false.mpr ht, h]

/-- C6 witness: a concrete failing body is mapped to the original text. -/
theorem C6_witness :
    parseInlineGuarded (fun _ => Except.error []) "y".data = "y".data :=
  C6_parseInline_fail_safe.2.1 (fun _ => Except.error []) "y".data [] rfl

/-- C4: checklist-marker acceptance differs exactly as described: the
full-document algorithm rejects `[X] ` (literal lowercase `x` only)
while the live parser accepts `x` and `X` case-insensitively; on the
common line `- [x] done` both parsers produce the identical single
checked checklist item. -/
theorem C4_checklist_marker_asymmetry :
    (∀ rest : List Char, fullChecklistMarker ('[' :: 'X' :: ']' :: ' ' :: rest) = false ∧
      liveChecklistMatch ('[' :: 'X' :: ']' :: ' ' :: rest) = some ('X', rest)) ∧
    (∀ rest : List Char, fullChecklistMarker ('[' :: 'x' :: ']' :: ' ' :: rest) = true ∧
      liveChecklistMatch ('[' :: 'x' :: ']' :: ' ' :: rest) = some ('x', rest)) ∧
    (parseLiveBlock "- [x] done".data =
      some ("<ul class=\"checklist\">".data ++ checklistLi true "done".data ++ "</ul>".data) ∧
    parseBlock ["- [x] done".data] =
      some ("<ul class=\"checklist\">".data ++ checklistLi true "done".data ++ "</ul>".data, 1)) :=
  ⟨fun _ => ⟨by simp [fullChecklistMarker, List.isPrefixOf], by rfl⟩,
    fun _ => ⟨by simp [fullChecklistMarker, List.isPrefixOf], by rfl⟩, by decide, by decide⟩

/-- C4 witness. -/
theorem C4_witness :
    fullChecklistMarker "[X] a".data = false ∧
    liveChecklistMatch "[X] a".data = some ('X', "a".data) :=
  C4_checklist_marker_asymmetry.1 "a".data

/-- C10: whether a list container carries the `checklist` class is
decided solely by the item that opens it: when no container is opened
the stack and its flags are untouched while the item itself is still
rendered as a checklist item, when one is opened its class is computed
from the opening line's content; concretely, `- [x] b` inside a list
opened by plain `- a` yields a checklist item inside an unflagged
`<ul>`, while `- [x] a` opening the list yields `<ul class="checklist">`. -/
theorem C10_checklist_flag_at_open :
    (∀ (stack : List LFrame) (indent : Nat) (ty : LType) (content : List Char),
      listOpenCond stack indent ty = false →
        (listStep stack indent ty content).2 = stack ∧
        (listStep stack indent ty content).1 = listLi content) ∧
    (∀ (stack : List LFrame) (indent : Nat) (ty : LType) (content : List Char),
      listOpenCond stack indent ty = true →
        ∃ closes, (listStep stack indent ty content).1 =
          closes ++ openTag ty (fullChecklistMarker content) ++ listLi content) ∧
    processListBlock ["- a".data, "- [x] b".data] =
      ("<ul><li>a</li>".data ++ checklistLi true "b".data ++ "</ul>".data, 2) ∧
    processListBlock ["- [x] a".data] =
      ("<ul class=\"checklist\">".data ++ checklistLi true "a".data ++ "</ul>".data, 1) := by
  refine ⟨?_, ?_, by decide, by decide⟩
  · intro stack indent ty content h
    simp [listStep, h]
  · intro stack indent ty content h
    cases stack with
    | nil => exact ⟨[], by simp [listStep, h]⟩
    | cons top rest =>
      by_cases hty : ty = top.type
      · subst hty
        exact ⟨[], by simp [listStep, h]⟩
      · exact ⟨"</".data ++ ltag top.type ++ ">".data, by simp [listStep, h, hty]⟩

/-- C10 witness. -/
theorem C10_witness :
    listOpenCond [⟨LType.ul, 0⟩] 0 LType.ul = false ∧
    (listStep [⟨LType.ul, 0⟩] 0 LType.ul "[x] b".data).2 = [⟨LType.ul, 0⟩] ∧
    (listStep [⟨LType.ul, 0⟩] 0 LType.ul "[x] b".data).1 = listLi "[x] b".data :=
  ⟨by decide, (C10_checklist_flag_at_open.1 [⟨LType.ul, 0⟩] 0 LType.ul "[x] b".data (by decide)).1,
    (C10_checklist_flag_at_open.1 [⟨LType.ul, 0⟩] 0 LType.ul "[x] b".data (by decide)).2⟩

/-- C2 counterexample: the claim quantifies over *every* input string
containing `*`, `_`, `~` or a backtick inside a backtick span, but an
input whose preceding text is placeholder-shaped breaks atomicity: here
the span `` `a<b*` `` (containing `*` and `<`) is destroyed by the
restore step (the engine matches `__DABIR_CODE_PLACEHOLDER_9__` across
the boundary and interpolates `codeBlocks[9]`, i.e. `undefined`), so
the span's `<` never appears escaped in the output at all. -/
theorem C2_atomicity_cex :
    parseInline "__DABIR_CODE_PLACEHOLDER_9`a<b*`".data =
      "<code>undefined</code>DABIR_CODE_PLACEHOLDER_0__".data ∧
    hasSub "&lt;".data (parseInline "__DABIR_CODE_PLACEHOLDER_9`a<b*`".data) = false :=
  ⟨by decide, by decide⟩

/-- C5 counterexample: on the line `"# "` the two parsers disagree on
heading markup — the live parser re-appends a space that the block
parser's content does not contain. -/
theorem C5_heading_cex :
    parseLiveBlock "# ".data = some "<h1> </h1>".data ∧
    parseBlock ["# ".data] = some ("<h1></h1>".data, 1) ∧
    "<h1> </h1>".data ≠ "<h1></h1>".data :=
  ⟨by decide, by decide, by decide⟩

/-- C1 counterexample: serializing a heading that contains a line break
yields `# a\nb`, which the document parser re-reads as a heading plus a
separate paragraph; re-serializing that surface gives `# a\n\nb` ≠
`# a\nb`, so the serialize → re-parse → re-serialize round trip is not
stable for every markup tree.  The third conjunct ties the re-parsed
HTML string to the markup tree whose serialization it is. -/
theorem C1_roundtrip_cex :
    htmlParserParse (.elem "DIV".data [] [] [.elem "H1".data [] []
      [.text "a".data, .elem "BR".data [] [] [], .text "b".data]]) = "# a\nb".data ∧
    markdownParse "# a\nb".data = some "<h1>a</h1><div>b</div>".data ∧
    renderNodes [.elem "H1".data [] [] [.text "a".data],
      .elem "DIV".data [] [] [.text "b".data]] = "<h1>a</h1><div>b</div>".data ∧
    htmlParserParse (.elem "DIV".data [] []
      [.elem "H1".data [] [] [.text "a".data], .elem "DIV".data [] [] [.text "b".data]]) =
      "# a\n\nb".data ∧
    "# a\n\nb".data ≠ "# a\nb".data :=
  ⟨by decide, by decide, by decide, by decide, by decide⟩

theorem takeWhile_all_append {α : Type} (p : α → Bool) (A B : List α)
    (hA : ∀ l ∈ A, p l = true) (hB : ∀ r, B.head? = some r → p r = false) :
    (A ++ B).takeWhile p = A := by
  induction A with
  | nil =>
    cases B with
    | nil => rfl
    | cons r rs => simp [List.takeWhile_cons, hB r rfl]
  | cons a A ih =>
    simp only [List.cons_append, List.takeWhile_cons, hA a (by simp), if_true]
    rw [ih (fun l hl => hA l (by simp [hl]))]

theorem jsTrim_cons_of_not_ws (c : Char) (t : List Char) (h : jsWhitespace c = false) :
    ∃ t', jsTrim (c :: t) = c :: t' := by
  unfold jsTrim
  rw [List.dropWhile_cons_of_neg (by simp [h])]
  rw [List.reverse_cons, List.dropWhile_append]
  by_cases he : (t.reverse.dropWhile jsWhitespace).isEmpty = true
  · refine ⟨[], ?_⟩
    simp only [he, if_true]
    rw [show List.dropWhile jsWhitespace [c] = [c] from List.dropWhile_cons_of_neg (by simp [h])]
    rfl
  · refine ⟨(t.reverse.dropWhile jsWhitespace).reverse, ?_⟩
    simp only [he, if_false, Bool.false_eq_true]
    rw [List.reverse_append]
    rfl

theorem bq_not_heading (line : List Char) (h : "> ".data.isPrefixOf line = true) :
    headingMatch line = none := by
  obtain ⟨t, ht⟩ := List.isPrefixOf_iff_prefix.mp h
  subst ht
  rfl

theorem bq_not_hr (line : List Char) (h : "> ".data.isPrefixOf line = true) :
    jsTrim line ≠ "---".data := by
  obtain ⟨t, ht⟩ := List.isPrefixOf_iff_prefix.mp h
  subst ht
  obtain ⟨t', ht'⟩ := jsTrim_cons_of_not_ws '>' (' ' :: t) (by decide)
  intro hcon
  rw [show ("> ".data ++ t) = '>' :: (' ' :: t) from rfl, ht'] at hcon
  simp at hcon

/-- C9: a line starting with `> ` opens a blockquote that consumes
every immediately following line also starting with `> ` and stops at
the first that does not; each quoted line becomes a `<div>`, and a
quoted line whose content after the prefix is empty becomes an explicit
`<div><br></div>` marker rather than being dropped. -/
theorem C9_blockquote (q : List Char) (qs rest : List (List Char))
    (hq : "> ".data.isPrefixOf q = true)
    (hqs : ∀ l ∈ qs, "> ".data.isPrefixOf l = true)
    (hrest : ∀ r, rest.head? = some r → "> ".data.isPrefixOf r = false) :
    parseBlock ((q :: qs) ++ rest) =
      some ("<blockquote>".data ++ ((q :: qs).map bqLine).flatten ++ "</blockquote>".data,
        (q :: qs).length) ∧
    bqLine "> ".data = "<div><br></div>".data := by
  refine ⟨?_, by decide⟩
  have hns : (q :: (qs ++ rest)).takeWhile (fun l => "> ".data.isPrefixOf l) = q :: qs := by
    rw [List.takeWhile_cons, hq]
    simp only [if_true]
    rw [takeWhile_all_append _ qs rest hqs hrest]
  simp only [List.cons_append, parseBlock, bq_not_heading q hq, bq_not_hr q hq, if_false, hq,
    if_true, hns]

/-- C9 witness. -/
theorem C9_witness :
    parseBlock (["> a".data, "> ".data] ++ ["x".data]) =
      some ("<blockquote>".data ++ (["> a".data, "> ".data].map bqLine).flatten ++
        "</blockquote>".data, 2) ∧
    bqLine "> ".data = "<div><br></div>".data :=
  C9_blockquote "> a".data ["> ".data] ["x".data] (by decide)
    (by intro l hl; simp at hl; subst hl; decide) (by intro r hr; simp at hr; subst hr; decide)

theorem replaceChar_append (c : Char) (r a b : List Char) :
    replaceChar c r (a ++ b) = replaceChar c r a ++ replaceChar c r b := by
  induction a with
  | nil => rfl
  | cons x xs ih =>
    simp only [List.cons_append, replaceChar]
    by_cases h : x = c
    · simp [h, ih]
    · simp [h, ih]

theorem codeEscape_cons (x : Char) (s : List Char) :
    codeEscape (x :: s) = escMap x ++ codeEscape s := by
  unfold codeEscape escMap
  by_cases h1 : x = '<'
  · subst h1
    rw [show replaceChar '<' "&lt;".data ('<' :: s) =
      "&lt;".data ++ replaceChar '<' "&lt;".data s from by simp [replaceChar]]
    rw [replaceChar_append]
    rw [show replaceChar '>' "&gt;".data "&lt;".data = "&lt;".data from by decide]
    simp
  · rw [show replaceChar '<' "&lt;".data (x :: s) =
      x :: replaceChar '<' "&lt;".data s from by simp [replaceChar, h1]]
    by_cases h2 : x = '>'
    · subst h2
      simp [replaceChar]
    · simp [replaceChar, h1, h2]

theorem codeEscape_flatMap (s : List Char) : codeEscape s = s.flatMap escMap := by
  induction s with
  | nil => rfl
  | cons x s ih => rw [codeEscape_cons, ih, List.flatMap_cons]

/-- C8: a fence consumes verbatim lines to the closing fence (or to end
of input), the emitted code text escapes `<` and `>` exactly once each
and leaves `&` untouched (per-character specification `escMap`), and
the fenced document `"```\nhi <b>\n```"` yields a code block whose
content is the single line `hi &lt;b&gt;`. -/
theorem C8_code_fence :
    (∀ s, codeEscape s = s.flatMap escMap) ∧
    escMap '&' = ['&'] ∧
    (∀ (openL : List Char) (body post : List (List Char)) (close : List Char),
      fenceLine openL = true → headingMatch openL = none → jsTrim openL ≠ "---".data →
      "> ".data.isPrefixOf openL = false → imageMatch openL = none → listTrigger openL = false →
      (∀ l ∈ body, fenceLine l = false) → fenceLine close = true →
      parseBlock (openL :: (body ++ close :: post)) =
        some (codeBlockHtml (codeEscape ((body.map (fun l => l ++ ['\n'])).flatten)),
          body.length + 2)) ∧
    (∀ (openL : List Char) (body : List (List Char)),
      fenceLine openL = true → headingMatch openL = none → jsTrim openL ≠ "---".data →
      "> ".data.isPrefixOf openL = false → imageMatch openL = none → listTrigger openL = false →
      (∀ l ∈ body, fenceLine l = false) →
      parseBlock (openL :: body) =
        some (codeBlockHtml (codeEscape ((body.map (fun l => l ++ ['\n'])).flatten)),
          body.length + 2)) ∧
    markdownParse "```\nhi <b>\n```".data = some (codeBlockHtml "hi &lt;b&gt;\n".data) := by
  refine ⟨codeEscape_flatMap, by decide, ?_, ?_, by decide⟩
  · intro openL body post close hf hh hhr hbq him hlt hbody hclose
    have htw : (body ++ close :: post).takeWhile (fun l => !(fenceLine l)) = body := by
      refine takeWhile_all_append _ body (close :: post) (fun l hl => by simp [hbody l hl]) ?_
      intro r hr
      simp only [List.head?_cons, Option.some.injEq] at hr
      subst hr
      simp [hclose]
    simp only [parseBlock, hh, hhr, if_false, hbq, him, hlt, hf, if_true, htw, Bool.false_eq_true]
  · intro openL body hf hh hhr hbq him hlt hbody
    have htw : body.takeWhile (fun l => !(fenceLine l)) = body := by
      rw [List.takeWhile_eq_self_iff]
      intro l hl
      simp [hbody l hl]
    simp only [parseBlock, hh, hhr, if_false, hbq, him, hlt, hf, if_true, htw, Bool.false_eq_true]

/-- C8 witness. -/
theorem C8_witness :
    parseBlock ("```".data :: (["hi <b>".data] ++ "```".data :: [])) =
      some (codeBlockHtml (codeEscape ((["hi <b>".data].map (fun l => l ++ ['\n'])).flatten)), 3) :=
  C8_code_fence.2.2.1 "```".data ["hi <b>".data] [] "```".data (by decide) (by decide)
    (by decide) (by decide) (by decide) (by decide)
    (by intro l hl; simp at hl; subst hl; decide) (by decide)

theorem jsTrim_nil_all_ws (l : List Char) (h : jsTrim l = []) :
    ∀ c ∈ l, jsWhitespace c = true := by
  unfold jsTrim at h
  rw [List.reverse_eq_nil_iff] at h
  have h3 : ∀ x ∈ l.dropWhile jsWhitespace, jsWhitespace x = true := by
    intro x hx
    exact List.dropWhile_eq_nil_iff.mp h x (List.mem_reverse.mpr hx)
  intro c hc
  rw [← List.takeWhile_append_dropWhile (p := jsWhitespace) (l := l)] at hc
  rcases List.mem_append.mp hc with h4 | h4
  · exact List.mem_takeWhile_imp h4
  · exact h3 c h4

theorem blank_parseBlock_none (line : List Char) (rest : List (List Char))
    (h : jsTrim line = []) : parseBlock (line :: rest) = none := by
  have hall := jsTrim_nil_all_ws line h
  have hhead : headingMatch line = none := by
    cases line with
    | nil => rfl
    | cons c t =>
      have hc : jsWhitespace c = true := hall c (by simp)
      have hne : ¬ (c = '#') := by rintro rfl; exact absurd hc (by decide)
      simp [headingMatch, countLeading, hne]
  have hbq : "> ".data.isPrefixOf line = false := by
    cases line with
    | nil => rfl
    | cons c t =>
      have hc : jsWhitespace c = true := hall c (by simp)
      have hne : ('>' == c) = false := by
        rw [beq_eq_false_iff_ne]
        intro he
        rw [← he] at hc
        exact absurd hc (by decide)
      simp [List.isPrefixOf, hne]
  have himg : imageMatch line = none := by
    cases line with
    | nil => rfl
    | cons c t =>
      cases t with
      | nil => rfl
      | cons c2 t2 =>
        have hc : jsWhitespace c = true := hall c (by simp)
        have hne : ¬ (c = '!' ∧ c2 = '[') := by
          rintro ⟨rfl, -⟩
          exact absurd hc (by decide)
        simp [imageMatch, hne]
  have hdw : line.dropWhile jsWhitespace = [] := List.dropWhile_eq_nil_iff.mpr hall
  have hlt : listTrigger line = false := by simp [listTrigger, hdw, listItemMatch]
  have hfence : fenceLine line = false := by simp [fenceLine, h, List.isPrefixOf]
  have hhr : ¬ (jsTrim line = "---".data) := by rw [h]; simp
  simp only [parseBlock, hhead, if_neg hhr, hbq, Bool.false_eq_true, if_false, himg, hlt,
    hfence]

theorem blank_parseLoop (lines : List (List Char)) :
    ∀ acc : List Char, (∀ l ∈ lines, jsTrim l = []) →
      parseLoop lines.length lines [] acc = some acc := by
  induction lines with
  | nil => intro acc h; simp [parseLoop, flushPara]
  | cons line rest ih =>
    intro acc h
    have h1 := h line (by simp)
    rw [show (line :: rest).length = rest.length + 1 from rfl]
    simp only [parseLoop, blank_parseBlock_none line rest h1, h1, List.isEmpty_nil, if_true]
    rw [show flushPara [] = [] from rfl, List.append_nil]
    exact ih acc (fun l hl => h l (by simp [hl]))

/-- C7: the document parser never returns an empty string: empty input
yields the single empty-paragraph placeholder, and so does any input
all of whose lines are blank (whitespace-only), since no block rule
fires on a blank line and the final empty html falls back to the
placeholder. -/
theorem C7_never_empty :
    markdownParse [] = some emptyPlaceholder ∧
    (∀ md : List Char, (∀ l ∈ splitNl md, jsTrim l = []) →
      markdownParse md = some emptyPlaceholder) := by
  refine ⟨by decide, ?_⟩
  intro md h
  by_cases hmd : md = []
  · subst hmd; decide
  · unfold markdownParse
    rw [if_neg (by simpa [List.isEmpty_iff] using hmd)]
    rw [blank_parseLoop (splitNl md) [] h]
    rfl

/-- C7 witness: an input of only blank lines. -/
theorem C7_witness : markdownParse "\n \n".data = some emptyPlaceholder :=
  C7_never_empty.2 "\n \n".data (by decide)

theorem countLeading_decomp (c : Char) (l : List Char) :
    l = List.replicate (countLeading c l) c ++ l.drop (countLeading c l) := by
  induction l with
  | nil => rfl
  | cons x xs ih =>
    unfold countLeading
    by_cases h : x = c
    · subst h
      simp only [if_pos rfl, List.replicate_succ, List.cons_append, List.drop_succ_cons]
      exact congrArg (x :: ·) ih
    · simp [h]

theorem headingMatch_spec (line : List Char) (k : Nat) (content : List Char)
    (h : headingMatch line = some (k, content)) :
    ∃ rest, line = List.replicate k '#' ++ ' ' :: rest ∧ content = lineContent rest ∧
      1 ≤ k ∧ k ≤ 4 := by
  unfold headingMatch at h
  by_cases hk : 1 ≤ countLeading '#' line ∧ countLeading '#' line ≤ 4
  · rw [if_pos hk] at h
    cases hd : line.drop (countLeading '#' line) with
    | nil => rw [hd] at h; exact absurd h (by simp)
    | cons c rest =>
      rw [hd] at h
      by_cases hc : c = ' '
      · subst hc
        simp only [Option.some.injEq, Prod.mk.injEq] at h
        obtain ⟨hk1, hc1⟩ := h
        refine ⟨rest, ?_, hc1.symm, hk1 ▸ hk.1, hk1 ▸ hk.2⟩
        subst hk1
        conv in line => rw [countLeading_decomp '#' line]
        rw [hd]
      · exact absurd h (by simp [hc])
  · rw [if_neg hk] at h
    exact absurd h (by simp)

theorem imageMatch_not_bq (line : List Char) (p : List Char × List Char)
    (h : imageMatch line = some p) : "> ".data.isPrefixOf line = false := by
  cases line with
  | nil => rfl
  | cons c t =>
    cases t with
    | nil => exact absurd h (by simp [imageMatch])
    | cons c2 t2 =>
      by_cases hc : c = '!' ∧ c2 = '['
      · obtain ⟨rfl, -⟩ := hc
        simp [List.isPrefixOf]
      · exact absurd h (by simp [imageMatch, hc])

/-- C5 (amended): for single lines the live parser and the block parser
agree on the Rule (`---`) and Image rules — same firing condition, same
markup — and on the Heading rule they fire under the same condition
with the same level, with identical markup whenever the heading content
is non-empty and does not end in whitespace (the line containing no
embedded line terminator); `C5_heading_cex` shows the heading markup
differs on a line with whitespace-only content. -/
theorem C5_live_block_agreement :
    (∀ line, headingMatch line = none → jsTrim line = "---".data →
      parseLiveBlock line = some "<hr>".data ∧ parseBlock [line] = some ("<hr>".data, 1)) ∧
    (∀ line alt src, headingMatch line = none → jsTrim line ≠ "---".data →
      imageMatch line = some (alt, src) →
      parseLiveBlock line = some (figureHtml alt src) ∧
      parseBlock [line] = some (figureHtml alt src, 1)) ∧
    (∀ line k content, headingMatch line = some (k, content) →
      parseBlock [line] = some (headingHtml k (parseInline content), 1)) ∧
    (∀ line k content, headingMatch line = some (k, content) →
      (∀ x ∈ line, isLineTerminator x = false) → content ≠ [] →
      (∀ c, content.getLast? = some c → jsWhitespace c = false) →
      parseLiveBlock line = some (headingHtml k (parseInline content))) := by
  refine ⟨?_, ?_, ?_, ?_⟩
  · intro line hm hhr
    constructor
    · simp [parseLiveBlock, hm, hhr]
    · simp [parseBlock, hm, hhr]
  · intro line alt src hm hhr himg
    have hbq := imageMatch_not_bq line (alt, src) himg
    constructor
    · simp [parseLiveBlock, hm, hhr, himg]
    · simp [parseBlock, hm, hhr, hbq, himg]
  · intro line k content hm
    simp [parseBlock, hm]
  · intro line k content hm hnl hcne hlast
    obtain ⟨rest, hline, hcontent, -, -⟩ := headingMatch_spec line k content hm
    have hrest_nl : ∀ x ∈ rest, (!(isLineTerminator x)) = true := by
      intro x hx
      have hxl : x ∈ line := by rw [hline]; simp [hx]
      simp [hnl x hxl]
    have hcr : content = rest := by
      rw [hcontent]
      exact List.takeWhile_eq_self_iff.mpr hrest_nl
    obtain ⟨c0, r0, hrev⟩ :=
      List.exists_cons_of_ne_nil (fun he => hcne (List.reverse_eq_nil_iff.mp he))
    have hws : jsWhitespace c0 = false := by
      refine hlast c0 ?_
      rw [← List.head?_reverse, hrev]
      rfl
    have hstrip : stripOneTrailingWs content = content := by
      unfold stripOneTrailingWs
      rw [hrev]
      simp [hws]
    have hc0ne : ¬ (c0 = ' ') := by
      rintro rfl
      exact absurd hws (by decide)
    have hends : endsWithSpace line = false := by
      unfold endsWithSpace
      rw [hline, List.reverse_append, List.reverse_cons, ← hcr, hrev]
      simp [hc0ne]
    simp [parseLiveBlock, hm, hstrip, hends]

/-- C5 witness. -/
theorem C5_witness :
    (parseLiveBlock " --- ".data = some "<hr>".data ∧
      parseBlock [" --- ".data] = some ("<hr>".data, 1)) ∧
    (parseLiveBlock "![a](s)".data = some (figureHtml "a".data "s".data) ∧
      parseBlock ["![a](s)".data] = some (figureHtml "a".data "s".data, 1)) ∧
    parseBlock ["# ab".data] = some (headingHtml 1 (parseInline "ab".data), 1) ∧
    parseLiveBlock "# ab".data = some (headingHtml 1 (parseInline "ab".data)) :=
  ⟨C5_live_block_agreement.1 " --- ".data (by decide) (by decide),
    C5_live_block_agreement.2.1 "![a](s)".data "a".data "s".data (by decide) (by decide)
      (by decide),
    C5_live_block_agreement.2.2.1 "# ab".data 1 "ab".data (by decide),
    C5_live_block_agreement.2.2.2 "# ab".data 1 "ab".data (by decide) (by decide) (by decide)
      (by intro c hc; simp at hc; subst hc; decide)⟩

theorem takeTo_clean (stop : Char) (pre post : List Char) (h : ∀ x ∈ pre, ¬ x = stop) :
    takeTo stop (pre ++ stop :: post) = some (pre, post) := by
  induction pre with
  | nil => simp [takeTo]
  | cons x xs ih =>
    simp only [List.cons_append, takeTo, List.append_eq, h x (by simp), if_false]
    rw [ih (fun y hy => h y (by simp [hy]))]
    rfl

theorem extractCodeF_append_clean (pre : List Char) (h : ∀ x ∈ pre, ¬ x = backtick) :
    ∀ (n f : Nat) (tail : List Char),
      extractCodeF n f (pre ++ tail) =
        (pre ++ (extractCodeF n (f - pre.length) tail).1,
          (extractCodeF n (f - pre.length) tail).2) := by
  induction pre with
  | nil => intro n f tail; simp
  | cons x xs ih =>
    intro n f tail
    cases f with
    | zero => simp [extractCodeF]
    | succ g =>
      simp only [List.cons_append, extractCodeF, List.append_eq, h x (by simp), if_false]
      rw [ih (fun y hy => h y (by simp [hy])) n g tail]
      simp [List.length_cons, Nat.succ_sub_succ]

theorem extractCodeF_clean (l : List Char) (h : ∀ x ∈ l, ¬ x = backtick) :
    ∀ n f, extractCodeF n f l = (l, []) := by
  induction l with
  | nil => intro n f; cases f <;> rfl
  | cons x xs ih =>
    intro n f
    cases f with
    | zero => rfl
    | succ g =>
      simp only [extractCodeF, h x (by simp), if_false]
      rw [ih (fun y hy => h y (by simp [hy])) n g]

theorem extractCodeF_step_span (n f : Nat) (c post : List Char) (hc : c ≠ [])
    (hcb : ∀ x ∈ c, ¬ x = backtick) :
    extractCodeF n (f + 1) (backtick :: (c ++ backtick :: post)) =
      (placeholder n ++ (extractCodeF (n + 1) f post).1,
        escapeCode c :: (extractCodeF (n + 1) f post).2) := by
  simp [extractCodeF, takeTo_clean backtick c post hcb, List.isEmpty_eq_false.mpr hc]

theorem extractCode_span (pre c post : List Char)
    (hpre : ∀ x ∈ pre, ¬ x = backtick) (hc : c ≠ []) (hcb : ∀ x ∈ c, ¬ x = backtick)
    (hpost : ∀ x ∈ post, ¬ x = backtick) :
    extractCode (pre ++ backtick :: (c ++ backtick :: post)) =
      (pre ++ placeholder 0 ++ post, [escapeCode c]) := by
  unfold extractCode
  rw [extractCodeF_append_clean pre hpre]
  have hlen : (pre ++ backtick :: (c ++ backtick :: post)).length - pre.length =
      (c.length + post.length + 1) + 1 := by
    simp
    omega
  rw [hlen]
  rw [extractCodeF_step_span 0 (c.length + post.length + 1) c post hc hcb]
  rw [extractCodeF_clean post hpost (0 + 1) (c.length + post.length + 1)]
  simp [List.append_assoc]

theorem linkPassF_clean (l : List Char) (h : ∀ x ∈ l, ¬ x = '[') :
    ∀ f, linkPassF f l = l := by
  induction l with
  | nil => intro f; cases f <;> rfl
  | cons x xs ih =>
    intro f
    cases f with
    | zero => rfl
    | succ g =>
      simp only [linkPassF, h x (by simp), if_false]
      rw [ih (fun y hy => h y (by simp [hy])) g]

theorem pairPassF_clean (d : Char) (pre post : List Char) (l : List Char)
    (h : ∀ x ∈ l, ¬ x = d) : ∀ f, pairPassF d pre post f l = l := by
  induction l with
  | nil => intro f; cases f <;> rfl
  | cons x xs ih =>
    intro f
    cases f with
    | zero => rfl
    | succ g =>
      simp only [pairPassF]
      rw [if_neg (fun hh : x = d ∧ xs.head? = some d => h x (by simp) hh.1)]
      rw [ih (fun y hy => h y (by simp [hy])) g]

theorem emPassF_clean (l : List Char) (h : ∀ x ∈ l, ¬ x = '*') :
    ∀ f p, emPassF f p l = l := by
  induction l with
  | nil => intro f p; cases f <;> rfl
  | cons x xs ih =>
    intro f p
    cases f with
    | zero => rfl
    | succ g =>
      simp only [emPassF]
      rw [if_neg (fun hh : x = '*' ∧ p = false => h x (by simp) hh.1)]
      rw [ih (fun y hy => h y (by simp [hy])) g]

theorem restoreAttempt_not_underscore (blocks : List (List Char)) (x : Char) (t : List Char)
    (h : ¬ x = '_') : restoreAttempt blocks (x :: t) = none := by
  have hne : ('_' == x) = false := beq_eq_false_iff_ne.mpr (fun he => h he.symm)
  have hb : phStem.isPrefixOf (x :: t) = false := by
    simp [phStem, List.isPrefixOf, hne]
  simp [restoreAttempt, hb]

theorem restoreF_skip (blocks : List (List Char)) (pre : List Char)
    (h : ∀ x ∈ pre, ¬ x = '_') :
    ∀ (f : Nat) (tail : List Char),
      restoreF blocks f (pre ++ tail) = pre ++ restoreF blocks (f - pre.length) tail := by
  induction pre with
  | nil => intro f tail; simp
  | cons x xs ih =>
    intro f tail
    cases f with
    | zero => simp [restoreF]
    | succ g =>
      simp only [List.cons_append, restoreF, List.append_eq,
        restoreAttempt_not_underscore blocks x _ (h x (by simp))]
      rw [ih (fun y hy => h y (by simp [hy])) g tail]
      simp [List.length_cons, Nat.succ_sub_succ]

theorem restoreF_clean (blocks : List (List Char)) (l : List Char)
    (h : ∀ x ∈ l, ¬ x = '_') : ∀ f, restoreF blocks f l = l := by
  induction l with
  | nil => intro f; cases f <;> rfl
  | cons x xs ih =>
    intro f
    cases f with
    | zero => rfl
    | succ g =>
      simp only [restoreF, restoreAttempt_not_underscore blocks x _ (h x (by simp))]
      rw [ih (fun y hy => h y (by simp [hy])) g]

theorem restoreAttempt_ph (e post : List Char) :
    restoreAttempt [e] (placeholder 0 ++ post) =
      some ("<code>".data ++ e ++ "</code>".data, post) := by
  have h1 : placeholder 0 ++ post = phStem ++ ('0' :: '_' :: '_' :: post) := by
    rw [placeholder, show Nat.toDigits 10 0 = ['0'] from by decide]
    simp
  rw [h1]
  unfold restoreAttempt
  rw [show phStem.isPrefixOf (phStem ++ ('0' :: '_' :: '_' :: post)) = true from
    List.isPrefixOf_iff_prefix.mpr (List.prefix_append _ _)]
  simp only [if_true]
  rw [List.drop_left]
  rw [show digitSplit ('0' :: '_' :: '_' :: post) = (['0'], '_' :: '_' :: post) from rfl]
  rw [show ("__".data.isPrefixOf ('_' :: '_' :: post)) = true from
    List.isPrefixOf_iff_prefix.mpr (List.prefix_append "__".data post)]
  simp [digitsVal]

theorem restoreF_cons_found (blocks : List (List Char)) (f : Nat) (l rep rest : List Char)
    (hl : l ≠ []) (ha : restoreAttempt blocks l = some (rep, rest)) :
    restoreF blocks (f + 1) l = rep ++ restoreF blocks f rest := by
  cases l with
  | nil => exact absurd rfl hl
  | cons c cs => simp only [restoreF, ha]

theorem restorePass_span (e pre post : List Char)
    (hpre : ∀ x ∈ pre, ¬ x = '_') (hpost : ∀ x ∈ post, ¬ x = '_') :
    restorePass [e] (pre ++ placeholder 0 ++ post) =
      pre ++ ("<code>".data ++ e ++ "</code>".data ++ post) := by
  unfold restorePass
  rw [List.append_assoc, restoreF_skip [e] pre hpre]
  have hf : (pre ++ (placeholder 0 ++ post)).length - pre.length = (27 + post.length) + 1 := by
    simp [placeholder, phStem, show Nat.toDigits 10 0 = ['0'] from by decide]
    omega
  rw [hf]
  rw [restoreF_cons_found [e] (27 + post.length) (placeholder 0 ++ post) _ post
    (by simp [placeholder, phStem]) (restoreAttempt_ph e post)]
  rw [restoreF_clean [e] post hpost (27 + post.length)]

theorem escapeCode_clean (s : List Char)
    (h : ∀ x ∈ s, ¬ x = '&' ∧ ¬ x = '<' ∧ ¬ x = '>') : escapeCode s = s := by
  induction s with
  | nil => rfl
  | cons x s ih =>
    obtain ⟨h1, h2, h3⟩ := h x (by simp)
    unfold escapeCode at *
    simp only [replaceChar, h1, h2, h3, if_false]
    rw [ih (fun y hy => h y (by simp [hy]))]

theorem hasSub_true_characterization (n : List Char) : ∀ l, hasSub n l = true ↔ n <:+: l := by
  intro l
  induction l with
  | nil =>
    simp only [hasSub, List.isEmpty_iff]
    constructor
    · intro h
      subst h
      exact List.infix_rfl
    · intro h
      obtain ⟨s, t, hst⟩ := h
      simp only [List.append_eq_nil, List.append_eq_nil] at hst
      exact hst.1.2
  | cons c t ih =>
    simp only [hasSub, Bool.or_eq_true]
    rw [List.isPrefixOf_iff_prefix, ih, List.infix_cons_iff]

/-!  Lemmas for the placeholder-tracking proof of C2.  The invariant:
each substitution pass keeps the placeholder token contiguous and never
manufactures a double underscore (`__`) to its left, so the restore
pass reaches the token intact and replaces it by the stored content. -/

theorem hasSub_cons_false {n : List Char} {x : Char} {t : List Char}
    (h : hasSub n (x :: t) = false) :
    n.isPrefixOf (x :: t) = false ∧ hasSub n t = false := by
  simpa only [hasSub, Bool.or_eq_false_iff] using h

theorem hasSub_false_of_infix {n s t : List Char} (h : hasSub n t = false)
    (hsub : s <:+: t) : hasSub n s = false := by
  cases hh : hasSub n s with
  | false => rfl
  | true =>
    exfalso
    have h2 : hasSub n t = true :=
      (hasSub_true_characterization n t).mpr
        (((hasSub_true_characterization n s).mp hh).trans hsub)
    rw [h2] at h
    cases h

theorem noDD_cons {x : Char} {t : List Char} (ht : hasSub "__".data t = false)
    (hx : x = '_' → t.head? ≠ some '_') : hasSub "__".data (x :: t) = false := by
  simp only [hasSub, Bool.or_eq_false_iff]
  refine ⟨?_, ht⟩
  cases t with
  | nil => simp [List.isPrefixOf]
  | cons y t2 =>
    by_cases hxe : x = '_'
    · have hy : ¬ ('_' = y) := fun he => hx hxe (by simp [← he])
      simp [List.isPrefixOf, hy]
    · have hx2 : ¬ ('_' = x) := fun he => hxe he.symm
      simp [List.isPrefixOf, hx2]

theorem noDD_cons_ne {x : Char} {t : List Char} (hx : ¬ x = '_')
    (ht : hasSub "__".data t = false) : hasSub "__".data (x :: t) = false :=
  noDD_cons ht (fun he => absurd he hx)

theorem noDD_append {u v : List Char} (hu : hasSub "__".data u = false)
    (hv : hasSub "__".data v = false)
    (hb : u.getLast? = some '_' → v.head? ≠ some '_') :
    hasSub "__".data (u ++ v) = false := by
  induction u with
  | nil => simpa using hv
  | cons x u ih =>
    obtain ⟨hpre, hu2⟩ := hasSub_cons_false hu
    cases u with
    | nil =>
      simp only [List.cons_append, List.nil_append]
      refine noDD_cons hv ?_
      intro hx
      exact hb (by simp [hx])
    | cons y u2 =>
      simp only [List.cons_append]
      refine noDD_cons (ih hu2 (fun hl => hb (by simpa using hl))) ?_
      intro hx hhd
      have hy : y = '_' := by simpa using hhd
      rw [hx, hy] at hpre
      simp [List.isPrefixOf] at hpre

theorem head?_append_left {l t : List Char} {c : Char} (h : l.head? = some c) :
    (l ++ t).head? = some c := by
  cases l with
  | nil => cases h
  | cons => simpa using h

theorem takeTo_decomp (stop : Char) :
    ∀ (l p r : List Char), takeTo stop l = some (p, r) →
      l = p ++ stop :: r ∧ ∀ x ∈ p, ¬ x = stop := by
  intro l
  induction l with
  | nil => intro p r h; cases h
  | cons c cs ih =>
    intro p r h
    by_cases hc : c = stop
    · rw [takeTo, if_pos hc] at h
      cases h
      subst hc
      exact ⟨rfl, by simp⟩
    · rw [takeTo, if_neg hc] at h
      cases ht : takeTo stop cs with
      | none => rw [ht] at h; cases h
      | some pr =>
        rw [ht] at h
        obtain ⟨p1, r1⟩ := pr
        have h' : c :: p1 = p ∧ r1 = r := by simpa using h
        obtain ⟨hp, hr⟩ := h'
        subst hp
        subst hr
        obtain ⟨h1, h2⟩ := ih p1 r1 ht
        refine ⟨by rw [h1]; simp, ?_⟩
        intro x hx
        rcases List.mem_cons.mp hx with rfl | hx2
        · exact hc
        · exact h2 x hx2

theorem pairCloseAux_decomp (d : Char) :
    ∀ (l content rest : List Char), pairCloseAux d l = some (content, rest) →
      l = content ++ d :: d :: rest := by
  intro l
  induction l with
  | nil => intro content rest h; cases h
  | cons x xs ih =>
    intro content rest h
    simp only [pairCloseAux] at h
    by_cases h1 : isLineTerminator x = true
    · rw [if_pos h1] at h; cases h
    · rw [if_neg h1] at h
      by_cases h2 : x = d ∧ xs.head? = some d
      · rw [if_pos h2] at h
        cases h
        obtain ⟨hx, hh⟩ := h2
        cases xs with
        | nil => simp at hh
        | cons y ys =>
          simp only [List.head?_cons, Option.some.injEq] at hh
          simp [hx, hh]
      · rw [if_neg h2] at h
        cases ht : pairCloseAux d xs with
        | none => rw [ht] at h; cases h
        | some pr =>
          rw [ht] at h
          obtain ⟨p1, r1⟩ := pr
          have h' : x :: p1 = content ∧ r1 = rest := by simpa using h
          obtain ⟨hp, hr⟩ := h'
          subst hp
          subst hr
          rw [ih p1 r1 ht]
          simp

theorem pairClose_decomp (d : Char) (l content rest : List Char)
    (h : pairClose d l = some (content, rest)) : l = content ++ d :: d :: rest := by
  cases l with
  | nil => cases h
  | cons x xs =>
    simp only [pairClose] at h
    by_cases h1 : isLineTerminator x = true
    · rw [if_pos h1] at h; cases h
    · rw [if_neg h1] at h
      cases ht : pairCloseAux d xs with
      | none => rw [ht] at h; cases h
      | some pr =>
        rw [ht] at h
        obtain ⟨p1, r1⟩ := pr
        have h' : x :: p1 = content ∧ r1 = rest := by simpa using h
        obtain ⟨hp, hr⟩ := h'
        subst hp
        subst hr
        rw [pairCloseAux_decomp d xs p1 r1 ht]
        simp

theorem emCloseAux_decomp :
    ∀ (l content rest : List Char), emCloseAux l = some (content, rest) →
      l = content ++ '*' :: rest := by
  intro l
  induction l with
  | nil => intro content rest h; cases h
  | cons x xs ih =>
    intro content rest h
    simp only [emCloseAux] at h
    by_cases h1 : isLineTerminator x = true
    · rw [if_pos h1] at h; cases h
    · rw [if_neg h1] at h
      by_cases h2 : x = '*' ∧ xs.head? ≠ some '*'
      · rw [if_pos h2] at h
        cases h
        simp [h2.1]
      · rw [if_neg h2] at h
        cases ht : emCloseAux xs with
        | none => rw [ht] at h; cases h
        | some pr =>
          rw [ht] at h
          obtain ⟨p1, r1⟩ := pr
          have h' : x :: p1 = content ∧ r1 = rest := by simpa using h
          obtain ⟨hp, hr⟩ := h'
          subst hp
          subst hr
          rw [ih p1 r1 ht]
          simp

theorem emClose_decomp (l content rest : List Char)
    (h : emClose l = some (content, rest)) : l = content ++ '*' :: rest := by
  cases l with
  | nil => cases h
  | cons x xs =>
    simp only [emClose] at h
    by_cases h1 : isLineTerminator x = true
    · rw [if_pos h1] at h; cases h
    · rw [if_neg h1] at h
      cases ht : emCloseAux xs with
      | none => rw [ht] at h; cases h
      | some pr =>
        rw [ht] at h
        obtain ⟨p1, r1⟩ := pr
        have h' : x :: p1 = content ∧ r1 = rest := by simpa using h
        obtain ⟨hp, hr⟩ := h'
        subst hp
        subst hr
        rw [emCloseAux_decomp xs p1 r1 ht]
        simp

theorem linkAttempt_decomp (cs txt href rest : List Char)
    (h : linkAttempt cs = some (txt, href, rest)) :
    cs = txt ++ ']' :: '(' :: (href ++ ')' :: rest) := by
  unfold linkAttempt at h
  cases h1 : takeTo ']' cs with
  | none => rw [h1] at h; cases h
  | some pr1 =>
    rw [h1] at h
    obtain ⟨t1, r1⟩ := pr1
    by_cases he : t1.isEmpty = true
    · simp only [he, if_true] at h
      cases h
    · simp only [he, Bool.false_eq_true, if_false] at h
      split at h
      · rename_i rest2
        cases h2 : takeTo ')' rest2 with
        | none => rw [h2] at h; cases h
        | some pr2 =>
          rw [h2] at h
          obtain ⟨h1t, r3⟩ := pr2
          by_cases he2 : h1t.isEmpty = true
          · simp only [he2, if_true] at h
            cases h
          · simp only [he2, Bool.false_eq_true, if_false] at h
            have h' : t1 = txt ∧ h1t = href ∧ r3 = rest := by simpa using h
            obtain ⟨hp, hq, hr⟩ := h'
            subst hp
            subst hq
            subst hr
            have hd1 := (takeTo_decomp ']' cs t1 ('(' :: rest2) h1).1
            have hd2 := (takeTo_decomp ')' rest2 h1t r3 h2).1
            rw [hd1, hd2]
      · cases h

theorem split_around_sep (A M B u sep v : List Char)
    (hM : M ≠ []) (hsep : sep ≠ [])
    (hdis : ∀ x ∈ sep, ¬ x ∈ M)
    (he : A ++ M ++ B = u ++ sep ++ v) :
    (∃ A2, A = u ++ sep ++ A2 ∧ v = A2 ++ M ++ B) ∨
    (∃ B1 B2, u = A ++ M ++ B1 ∧ B = B1 ++ sep ++ B2 ∧ v = B2) := by
  rw [List.append_assoc, List.append_assoc] at he
  rcases List.append_eq_append_iff.mp he with ⟨w, hw1, hw2⟩ | ⟨w, hw1, hw2⟩
  · rcases List.append_eq_append_iff.mp hw2 with ⟨z, hz1, hz2⟩ | ⟨z, hz1, hz2⟩
    · right
      exact ⟨z, v, by rw [hw1, hz1]; simp [List.append_assoc], by rw [hz2]; simp, rfl⟩
    · cases z with
      | nil =>
        right
        refine ⟨[], v, ?_, ?_, rfl⟩
        · rw [hw1]; simp at hz1; simp [hz1]
        · simp only [List.nil_append] at hz2
          simpa using hz2.symm
      | cons zh zt =>
        exfalso
        cases hse : sep with
        | nil => exact hsep hse
        | cons s0 st =>
          rw [hse] at hz2
          have hs : s0 = zh := by
            have := congrArg List.head? hz2
            simpa using this
          exact hdis s0 (by rw [hse]; simp) (by rw [hs, hz1]; simp)
  · rcases List.append_eq_append_iff.mp hw2 with ⟨z, hz1, hz2⟩ | ⟨z, hz1, hz2⟩
    · left
      exact ⟨z, by rw [hw1, hz1]; simp [List.append_assoc], by rw [hz2]; simp⟩
    · cases z with
      | nil =>
        left
        refine ⟨[], ?_, ?_⟩
        · rw [hw1]; simp at hz1; simp [hz1]
        · simp only [List.nil_append] at hz2
          simpa using hz2.symm
      | cons zh zt =>
        exfalso
        cases hme : M with
        | nil => exact hM hme
        | cons m0 mt =>
          rw [hme] at hz2
          have hm : m0 = zh := by
            have := congrArg List.head? hz2
            simpa using this
          exact hdis zh (by rw [hz1]; simp) (by rw [hme, ← hm]; simp)

theorem pairPassF_skip (d : Char) (lp ls : List Char) (p : List Char)
    (h : ∀ x ∈ p, ¬ x = d) :
    ∀ (f : Nat) (rest : List Char),
      pairPassF d lp ls f (p ++ rest) = p ++ pairPassF d lp ls (f - p.length) rest := by
  induction p with
  | nil => intro f rest; simp
  | cons x xs ih =>
    intro f rest
    cases f with
    | zero => simp [pairPassF]
    | succ g =>
      simp only [List.cons_append, pairPassF, List.append_eq]
      rw [if_neg (fun hh : x = d ∧ _ => h x (by simp) hh.1)]
      rw [ih (fun y hy => h y (by simp [hy])) g rest]
      simp [Nat.succ_sub_succ]

theorem linkPassF_skip (p : List Char) (h : ∀ x ∈ p, ¬ x = '[') :
    ∀ (f : Nat) (rest : List Char),
      linkPassF f (p ++ rest) = p ++ linkPassF (f - p.length) rest := by
  induction p with
  | nil => intro f rest; simp
  | cons x xs ih =>
    intro f rest
    cases f with
    | zero => simp [linkPassF]
    | succ g =>
      simp only [List.cons_append, linkPassF, List.append_eq, h x (by simp), if_false]
      rw [ih (fun y hy => h y (by simp [hy])) g rest]
      simp [Nat.succ_sub_succ]

theorem emPassF_skip (p : List Char) (h : ∀ x ∈ p, ¬ x = '*') :
    ∀ (f : Nat) (pv : Bool) (rest : List Char),
      emPassF f pv (p ++ rest) =
        p ++ emPassF (f - p.length) (if p = [] then pv else false) rest := by
  induction p with
  | nil => intro f pv rest; simp
  | cons x xs ih =>
    intro f pv rest
    cases f with
    | zero => simp [emPassF]
    | succ g =>
      simp only [List.cons_append, emPassF, List.append_eq]
      rw [if_neg (fun hh : x = '*' ∧ _ => h x (by simp) hh.1)]
      rw [show (decide (x = '*')) = false from decide_eq_false (h x (by simp))]
      rw [ih (fun y hy => h y (by simp [hy])) g false rest]
      have : (if xs = [] then false else false) = (if (x :: xs : List Char) = [] then pv else false) := by
        simp
      rw [this]
      simp [Nat.succ_sub_succ]

theorem noDD_front {s u v : List Char} (hs : hasSub "__".data s = false)
    (he : s = u ++ v) : hasSub "__".data u = false :=
  hasSub_false_of_infix hs ⟨[], v, by simp [he]⟩

theorem noDD_suffix {s u v : List Char} (hs : hasSub "__".data s = false)
    (he : s = u ++ v) : hasSub "__".data v = false :=
  hasSub_false_of_infix hs ⟨u, [], by simp [he]⟩

theorem pairPassF_noDD (d : Char) (lp ls : List Char) (hd : ¬ d = '_')
    (hlp : hasSub "__".data lp = false) (hls : hasSub "__".data ls = false)
    (hlph : lp.head? = some '<') (hlsh : ls.head? = some '<')
    (hlpl : ¬ lp.getLast? = some '_') (hlsl : ¬ ls.getLast? = some '_') :
    ∀ (f : Nat) (s : List Char), hasSub "__".data s = false →
      hasSub "__".data (pairPassF d lp ls f s) = false ∧
      (pairPassF d lp ls f s = [] ∨ (pairPassF d lp ls f s).head? = s.head? ∨
        (pairPassF d lp ls f s).head? = some '<') := by
  intro f
  induction f with
  | zero => intro s hs; exact ⟨hs, Or.inr (Or.inl rfl)⟩
  | succ g ih =>
    intro s hs
    cases s with
    | nil => exact ⟨by simp [pairPassF, hasSub], Or.inl rfl⟩
    | cons x cs =>
      obtain ⟨hpre, htl⟩ := hasSub_cons_false hs
      by_cases htr : x = d ∧ cs.head? = some d
      · cases hcl : pairClose d cs.tail with
        | none =>
          have hstep : pairPassF d lp ls (g+1) (x :: cs) = x :: pairPassF d lp ls g cs := by
            simp only [pairPassF, if_pos htr, hcl]
          rw [hstep]
          obtain ⟨ih1, _⟩ := ih cs htl
          exact ⟨noDD_cons ih1 (fun hx => absurd (htr.1.symm.trans hx) hd),
            Or.inr (Or.inl rfl)⟩
        | some pr =>
          obtain ⟨content, rest⟩ := pr
          cases cs with
          | nil =>
            obtain ⟨_, hx2⟩ := htr
            simp at hx2
          | cons y ys =>
            simp only [List.tail_cons] at hcl
            have hdec : ys = content ++ d :: d :: rest :=
              pairClose_decomp d ys content rest hcl
            have hstep : pairPassF d lp ls (g+1) (x :: y :: ys) =
                lp ++ content ++ ls ++ pairPassF d lp ls g rest := by
              simp only [pairPassF, if_pos htr, List.tail_cons, hcl]
            rw [hstep]
            have hys : hasSub "__".data ys = false := (hasSub_cons_false htl).2
            have hcont : hasSub "__".data content = false := noDD_front hys hdec
            have hrest : hasSub "__".data rest = false :=
              noDD_suffix (noDD_suffix hys hdec)
                (show (d :: d :: rest : List Char) = [d, d] ++ rest from rfl)
            obtain ⟨ihr1, _⟩ := ih rest hrest
            constructor
            · have h4 : hasSub "__".data (ls ++ pairPassF d lp ls g rest) = false :=
                noDD_append hls ihr1 (fun hl => absurd hl hlsl)
              have h3 : hasSub "__".data
                  (content ++ (ls ++ pairPassF d lp ls g rest)) = false :=
                noDD_append hcont h4 (fun _ => by rw [head?_append_left hlsh]; simp)
              have h2 : hasSub "__".data
                  (lp ++ (content ++ (ls ++ pairPassF d lp ls g rest))) = false :=
                noDD_append hlp h3 (fun hl => absurd hl hlpl)
              simpa [List.append_assoc] using h2
            · right; right
              rw [List.append_assoc, List.append_assoc]
              exact head?_append_left hlph
      · have hstep : pairPassF d lp ls (g+1) (x :: cs) = x :: pairPassF d lp ls g cs := by
          simp only [pairPassF, if_neg htr]
        rw [hstep]
        obtain ⟨ih1, ih2⟩ := ih cs htl
        refine ⟨noDD_cons ih1 ?_, Or.inr (Or.inl rfl)⟩
        intro hx hhd
        rcases ih2 with hh0 | hh1 | hh2
        · rw [hh0] at hhd; cases hhd
        · rw [hh1] at hhd
          cases cs with
          | nil => simp at hhd
          | cons y ys =>
            have hy : y = '_' := by simpa using hhd
            rw [hx, hy] at hpre
            simp [List.isPrefixOf] at hpre
        · rw [hh2] at hhd
          simp at hhd

theorem emPassF_noDD :
    ∀ (f : Nat) (pv : Bool) (s : List Char), hasSub "__".data s = false →
      hasSub "__".data (emPassF f pv s) = false ∧
      (emPassF f pv s = [] ∨ (emPassF f pv s).head? = s.head? ∨
        (emPassF f pv s).head? = some '<') := by
  intro f
  induction f with
  | zero => intro pv s hs; exact ⟨hs, Or.inr (Or.inl rfl)⟩
  | succ g ih =>
    intro pv s hs
    cases s with
    | nil => exact ⟨by simp [emPassF, hasSub], Or.inl rfl⟩
    | cons x cs =>
      obtain ⟨hpre, htl⟩ := hasSub_cons_false hs
      by_cases htr : x = '*' ∧ pv = false
      · cases hcl : emClose cs with
        | none =>
          have hstep : emPassF (g+1) pv (x :: cs) = x :: emPassF g true cs := by
            simp only [emPassF, if_pos htr, hcl]
          rw [hstep]
          obtain ⟨ih1, _⟩ := ih true cs htl
          exact ⟨noDD_cons ih1 (fun hx => absurd (htr.1.symm.trans hx) (by decide)),
            Or.inr (Or.inl rfl)⟩
        | some pr =>
          obtain ⟨content, rest⟩ := pr
          have hdec : cs = content ++ '*' :: rest := emClose_decomp cs content rest hcl
          have hstep : emPassF (g+1) pv (x :: cs) =
              "<em>".data ++ content ++ "</em>".data ++ emPassF g true rest := by
            simp only [emPassF, if_pos htr, hcl]
          rw [hstep]
          have hcont : hasSub "__".data content = false := noDD_front htl hdec
          have hrest : hasSub "__".data rest = false :=
            noDD_suffix (noDD_suffix htl hdec)
              (show ('*' :: rest : List Char) = ['*'] ++ rest from rfl)
          obtain ⟨ihr1, _⟩ := ih true rest hrest
          constructor
          · have h4 : hasSub "__".data ("</em>".data ++ emPassF g true rest) = false :=
              noDD_append (by decide) ihr1 (fun hl => by simp at hl)
            have h3 : hasSub "__".data
                (content ++ ("</em>".data ++ emPassF g true rest)) = false :=
              noDD_append hcont h4
                (fun _ => by rw [head?_append_left (show "</em>".data.head? = some '<' from rfl)]; simp)
            have h2 : hasSub "__".data
                ("<em>".data ++ (content ++ ("</em>".data ++ emPassF g true rest))) = false :=
              noDD_append (by decide) h3 (fun hl => by simp at hl)
            simpa [List.append_assoc] using h2
          · right; right
            rw [List.append_assoc, List.append_assoc]
            exact head?_append_left (show "<em>".data.head? = some '<' from rfl)
      · have hstep : emPassF (g+1) pv (x :: cs) =
            x :: emPassF g (decide (x = '*')) cs := by
          simp only [emPassF, if_neg htr]
        rw [hstep]
        obtain ⟨ih1, ih2⟩ := ih (decide (x = '*')) cs htl
        refine ⟨noDD_cons ih1 ?_, Or.inr (Or.inl rfl)⟩
        intro hx hhd
        rcases ih2 with hh0 | hh1 | hh2
        · rw [hh0] at hhd; cases hhd
        · rw [hh1] at hhd
          cases cs with
          | nil => simp at hhd
          | cons y ys =>
            have hy : y = '_' := by simpa using hhd
            rw [hx, hy] at hpre
            simp [List.isPrefixOf] at hpre
        · rw [hh2] at hhd
          simp at hhd

theorem linkPassF_noDD :
    ∀ (f : Nat) (s : List Char), hasSub "__".data s = false →
      hasSub "__".data (linkPassF f s) = false ∧
      (linkPassF f s = [] ∨ (linkPassF f s).head? = s.head? ∨
        (linkPassF f s).head? = some '<') := by
  intro f
  induction f with
  | zero => intro s hs; exact ⟨hs, Or.inr (Or.inl rfl)⟩
  | succ g ih =>
    intro s hs
    cases s with
    | nil => exact ⟨by simp [linkPassF, hasSub], Or.inl rfl⟩
    | cons x cs =>
      obtain ⟨hpre, htl⟩ := hasSub_cons_false hs
      by_cases htr : x = '['
      · cases hcl : linkAttempt cs with
        | none =>
          have hstep : linkPassF (g+1) (x :: cs) = x :: linkPassF g cs := by
            simp only [linkPassF, if_pos htr, hcl]
          rw [hstep]
          obtain ⟨ih1, _⟩ := ih cs htl
          exact ⟨noDD_cons ih1 (fun hx => absurd (htr.symm.trans hx) (by decide)),
            Or.inr (Or.inl rfl)⟩
        | some pr =>
          obtain ⟨txt, href, rest⟩ := pr
          have hdec : cs = txt ++ ']' :: '(' :: (href ++ ')' :: rest) :=
            linkAttempt_decomp cs txt href rest hcl
          have hstep : linkPassF (g+1) (x :: cs) =
              "<a href=\"".data ++ href ++ "\" target=\"_blank\">".data ++ txt ++
                "</a>".data ++ linkPassF g rest := by
            simp only [linkPassF, if_pos htr, hcl]
          rw [hstep]
          have htxt : hasSub "__".data txt = false := noDD_front htl hdec
          have hR0 : hasSub "__".data (']' :: '(' :: (href ++ ')' :: rest)) = false :=
            noDD_suffix htl hdec
          have hR1 : hasSub "__".data (href ++ ')' :: rest) = false :=
            noDD_suffix hR0
              (show (']' :: '(' :: (href ++ ')' :: rest) : List Char) =
                [']', '('] ++ (href ++ ')' :: rest) from rfl)
          have hhref : hasSub "__".data href = false := noDD_front hR1 rfl
          have hrest : hasSub "__".data rest = false :=
            noDD_suffix (noDD_suffix hR1 rfl)
              (show (')' :: rest : List Char) = [')'] ++ rest from rfl)
          obtain ⟨ihr1, _⟩ := ih rest hrest
          constructor
          · have h5 : hasSub "__".data ("</a>".data ++ linkPassF g rest) = false :=
              noDD_append (by decide) ihr1 (fun hl => by simp at hl)
            have h4 : hasSub "__".data
                (txt ++ ("</a>".data ++ linkPassF g rest)) = false :=
              noDD_append htxt h5
                (fun _ => by rw [head?_append_left (show "</a>".data.head? = some '<' from rfl)]; simp)
            have h3 : hasSub "__".data
                ("\" target=\"_blank\">".data ++ (txt ++ ("</a>".data ++ linkPassF g rest))) = false :=
              noDD_append (by decide) h4 (fun hl => by simp at hl)
            have h2 : hasSub "__".data
                (href ++ ("\" target=\"_blank\">".data ++ (txt ++ ("</a>".data ++ linkPassF g rest)))) = false :=
              noDD_append hhref h3
                (fun _ => by
                  rw [head?_append_left
                    (show "\" target=\"_blank\">".data.head? = some '\"' from rfl)]
                  simp)
            have h1 : hasSub "__".data
                ("<a href=\"".data ++ (href ++ ("\" target=\"_blank\">".data ++
                  (txt ++ ("</a>".data ++ linkPassF g rest))))) = false :=
              noDD_append (by decide) h2 (fun hl => by simp at hl)
            simpa [List.append_assoc] using h1
          · right; right
            rw [List.append_assoc, List.append_assoc, List.append_assoc, List.append_assoc]
            exact head?_append_left (show "<a href=\"".data.head? = some '<' from rfl)
      · have hstep : linkPassF (g+1) (x :: cs) = x :: linkPassF g cs := by
          simp only [linkPassF, if_neg htr]
        rw [hstep]
        obtain ⟨ih1, ih2⟩ := ih cs htl
        refine ⟨noDD_cons ih1 ?_, Or.inr (Or.inl rfl)⟩
        intro hx hhd
        rcases ih2 with hh0 | hh1 | hh2
        · rw [hh0] at hhd; cases hhd
        · rw [hh1] at hhd
          cases cs with
          | nil => simp at hhd
          | cons y ys =>
            have hy : y = '_' := by simpa using hhd
            rw [hx, hy] at hpre
            simp [List.isPrefixOf] at hpre
        · rw [hh2] at hhd
          simp at hhd

theorem pairPassF_ph (d : Char) (lp ls : List Char) (hd : ¬ d = '_')
    (hdph : ∀ x ∈ placeholder 0, ¬ x = d)
    (hlp : hasSub "__".data lp = false) (hls : hasSub "__".data ls = false)
    (hlph : lp.head? = some '<') (hlsh : ls.head? = some '<')
    (hlpl : ¬ lp.getLast? = some '_') (hlsl : ¬ ls.getLast? = some '_') :
    ∀ (f : Nat) (a b : List Char),
      hasSub "__".data a = false → hasSub "__".data b = false →
      ∃ a' b', pairPassF d lp ls f (a ++ placeholder 0 ++ b) = a' ++ placeholder 0 ++ b' ∧
        hasSub "__".data a' = false ∧ hasSub "__".data b' = false ∧
        (a' = [] ∨ (a ≠ [] ∧ a'.head? = a.head?) ∨ a'.head? = some '<') := by
  intro f
  induction f with
  | zero =>
    intro a b ha hb
    refine ⟨a, b, rfl, ha, hb, ?_⟩
    cases a with
    | nil => exact Or.inl rfl
    | cons => exact Or.inr (Or.inl ⟨by simp, rfl⟩)
  | succ g ih =>
    intro a b ha hb
    cases a with
    | nil =>
      refine ⟨[], pairPassF d lp ls (g + 1 - (placeholder 0).length) b, ?_, rfl,
        (pairPassF_noDD d lp ls hd hlp hls hlph hlsh hlpl hlsl _ b hb).1, Or.inl rfl⟩
      exact pairPassF_skip d lp ls (placeholder 0) hdph (g + 1) b
    | cons x a2 =>
      obtain ⟨hpre, ha2⟩ := hasSub_cons_false ha
      by_cases htr : x = d ∧ (a2 ++ placeholder 0 ++ b).head? = some d
      · cases a2 with
        | nil =>
          exfalso
          obtain ⟨hx1, hx2⟩ := htr
          rw [List.nil_append,
            head?_append_left (show (placeholder 0).head? = some '_' by rfl)] at hx2
          exact hd (by simpa using hx2.symm)
        | cons y a3 =>
          have hy : y = d := by simpa using htr.2
          cases hcl : pairClose d (a3 ++ placeholder 0 ++ b) with
          | none =>
            have hstep : pairPassF d lp ls (g+1) ((x :: y :: a3) ++ placeholder 0 ++ b) =
                x :: pairPassF d lp ls g ((y :: a3) ++ placeholder 0 ++ b) := by
              simp only [List.cons_append, pairPassF, List.append_eq, List.head?_cons,
                List.tail_cons, hcl]
              rw [if_pos ⟨htr.1, show some y = some d by rw [hy]⟩]
            obtain ⟨a2', b2', heq, h1, h2, h3⟩ := ih (y :: a3) b ha2 hb
            refine ⟨x :: a2', b2', ?_, ?_, h2, Or.inr (Or.inl ⟨by simp, rfl⟩)⟩
            · rw [hstep, heq]
              simp
            · exact noDD_cons_ne (fun he => hd (htr.1.symm.trans he)) h1
          | some pr =>
            obtain ⟨content, rest⟩ := pr
            have hdec : a3 ++ placeholder 0 ++ b = content ++ d :: d :: rest :=
              pairClose_decomp d _ content rest hcl
            have hstep : pairPassF d lp ls (g+1) ((x :: y :: a3) ++ placeholder 0 ++ b) =
                lp ++ content ++ ls ++ pairPassF d lp ls g rest := by
              simp only [List.cons_append, pairPassF, List.append_eq, List.head?_cons,
                List.tail_cons, hcl]
              rw [if_pos ⟨htr.1, show some y = some d by rw [hy]⟩]
            have ha3 : hasSub "__".data a3 = false := (hasSub_cons_false ha2).2
            rcases split_around_sep a3 (placeholder 0) b content [d, d] rest
                (by decide) (by simp)
                (fun z hz hmem => by
                  have : z = d := by simpa using hz
                  exact hdph z hmem this)
                (by rw [hdec]; simp) with
              ⟨A2, hA2, hv⟩ | ⟨B1, B2, hu, hB, hv⟩
            · have hA2n : hasSub "__".data A2 = false := noDD_suffix ha3 hA2
              have hcont : hasSub "__".data content = false :=
                noDD_front (noDD_front ha3 hA2) rfl
              obtain ⟨a2', b2', heq, h1, h2, h3⟩ := ih A2 b hA2n hb
              refine ⟨lp ++ (content ++ (ls ++ a2')), b2', ?_, ?_, h2,
                Or.inr (Or.inr (head?_append_left hlph))⟩
              · rw [hstep, hv, heq]
                simp [List.append_assoc]
              · exact noDD_append hlp
                  (noDD_append hcont
                    (noDD_append hls h1 (fun hl => absurd hl hlsl))
                    (fun _ => by rw [head?_append_left hlsh]; simp))
                  (fun hl => absurd hl hlpl)
            · have hB1 : hasSub "__".data B1 = false :=
                noDD_front (noDD_front hb hB) rfl
              have hB2 : hasSub "__".data B2 = false := noDD_suffix hb hB
              have hpass : hasSub "__".data (pairPassF d lp ls g B2) = false :=
                (pairPassF_noDD d lp ls hd hlp hls hlph hlsh hlpl hlsl g B2 hB2).1
              refine ⟨lp ++ a3, B1 ++ (ls ++ pairPassF d lp ls g B2), ?_, ?_, ?_,
                Or.inr (Or.inr (head?_append_left hlph))⟩
              · rw [hstep, hu, hv]
                simp [List.append_assoc]
              · exact noDD_append hlp ha3 (fun hl => absurd hl hlpl)
              · exact noDD_append hB1
                  (noDD_append hls hpass (fun hl => absurd hl hlsl))
                  (fun _ => by rw [head?_append_left hlsh]; simp)
      · have hstep : pairPassF d lp ls (g+1) ((x :: a2) ++ placeholder 0 ++ b) =
            x :: pairPassF d lp ls g (a2 ++ placeholder 0 ++ b) := by
          simp only [List.cons_append, pairPassF, List.append_eq]
          rw [if_neg htr]
        obtain ⟨a2', b2', heq, h1, h2, h3⟩ := ih a2 b ha2 hb
        refine ⟨x :: a2', b2', ?_, ?_, h2, Or.inr (Or.inl ⟨by simp, rfl⟩)⟩
        · rw [hstep, heq]
          simp
        · refine noDD_cons h1 ?_
          intro hx hhd
          rcases h3 with hh0 | ⟨ha2ne, hh1⟩ | hh2
          · rw [hh0] at hhd; cases hhd
          · rw [hh1] at hhd
            cases a2 with
            | nil => exact ha2ne rfl
            | cons y ys =>
              have hy : y = '_' := by simpa using hhd
              rw [hx, hy] at hpre
              simp [List.isPrefixOf] at hpre
          · rw [hh2] at hhd
            simp at hhd

theorem emPassF_ph :
    ∀ (f : Nat) (pv : Bool) (a b : List Char),
      hasSub "__".data a = false → hasSub "__".data b = false →
      ∃ a' b', emPassF f pv (a ++ placeholder 0 ++ b) = a' ++ placeholder 0 ++ b' ∧
        hasSub "__".data a' = false ∧ hasSub "__".data b' = false ∧
        (a' = [] ∨ (a ≠ [] ∧ a'.head? = a.head?) ∨ a'.head? = some '<') := by
  intro f
  induction f with
  | zero =>
    intro pv a b ha hb
    refine ⟨a, b, rfl, ha, hb, ?_⟩
    cases a with
    | nil => exact Or.inl rfl
    | cons => exact Or.inr (Or.inl ⟨by simp, rfl⟩)
  | succ g ih =>
    intro pv a b ha hb
    cases a with
    | nil =>
      refine ⟨[], emPassF (g + 1 - (placeholder 0).length) false b, ?_, rfl,
        (emPassF_noDD _ false b hb).1, Or.inl rfl⟩
      have hsk := emPassF_skip (placeholder 0) (by decide) (g + 1) pv b
      rw [if_neg (show ¬ (placeholder 0 = ([] : List Char)) from by decide)] at hsk
      exact hsk
    | cons x a2 =>
      obtain ⟨hpre, ha2⟩ := hasSub_cons_false ha
      by_cases htr : x = '*' ∧ pv = false
      · cases hcl : emClose (a2 ++ placeholder 0 ++ b) with
        | none =>
          have hstep : emPassF (g+1) pv ((x :: a2) ++ placeholder 0 ++ b) =
              x :: emPassF g true (a2 ++ placeholder 0 ++ b) := by
            simp only [List.cons_append, emPassF, List.append_eq, hcl]
            rw [if_pos htr]
          obtain ⟨a2', b2', heq, h1, h2, h3⟩ := ih true a2 b ha2 hb
          refine ⟨x :: a2', b2', ?_, ?_, h2, Or.inr (Or.inl ⟨by simp, rfl⟩)⟩
          · rw [hstep, heq]
            simp
          · exact noDD_cons_ne (fun he => absurd (htr.1.symm.trans he) (by decide)) h1
        | some pr =>
          obtain ⟨content, rest⟩ := pr
          have hdec : a2 ++ placeholder 0 ++ b = content ++ '*' :: rest :=
            emClose_decomp _ content rest hcl
          have hstep : emPassF (g+1) pv ((x :: a2) ++ placeholder 0 ++ b) =
              "<em>".data ++ content ++ "</em>".data ++ emPassF g true rest := by
            simp only [List.cons_append, emPassF, List.append_eq, hcl]
            rw [if_pos htr]
          rcases split_around_sep a2 (placeholder 0) b content ['*'] rest
              (by decide) (by simp)
              (fun z hz hmem => by
                have hz' : z = '*' := by simpa using hz
                subst hz'
                exact absurd hmem (by decide))
              (by rw [hdec]; simp) with
            ⟨A2, hA2, hv⟩ | ⟨B1, B2, hu, hB, hv⟩
          · have hA2n : hasSub "__".data A2 = false := noDD_suffix ha2 hA2
            have hcont : hasSub "__".data content = false :=
              noDD_front (noDD_front ha2 hA2) rfl
            obtain ⟨a2', b2', heq, h1, h2, h3⟩ := ih true A2 b hA2n hb
            refine ⟨"<em>".data ++ (content ++ ("</em>".data ++ a2')), b2', ?_, ?_, h2,
              Or.inr (Or.inr (head?_append_left (show "<em>".data.head? = some '<' from rfl)))⟩
            · rw [hstep, hv, heq]
              simp [List.append_assoc]
            · exact noDD_append (by decide)
                (noDD_append hcont
                  (noDD_append (by decide) h1 (fun hl => by simp at hl))
                  (fun _ => by
                    rw [head?_append_left (show "</em>".data.head? = some '<' from rfl)]
                    simp))
                (fun hl => by simp at hl)
          · have hB1 : hasSub "__".data B1 = false := noDD_front (noDD_front hb hB) rfl
            have hB2 : hasSub "__".data B2 = false := noDD_suffix hb hB
            have hpass : hasSub "__".data (emPassF g true B2) = false :=
              (emPassF_noDD g true B2 hB2).1
            refine ⟨"<em>".data ++ a2, B1 ++ ("</em>".data ++ emPassF g true B2), ?_, ?_, ?_,
              Or.inr (Or.inr (head?_append_left (show "<em>".data.head? = some '<' from rfl)))⟩
            · rw [hstep, hu, hv]
              simp [List.append_assoc]
            · exact noDD_append (by decide) ha2 (fun hl => by simp at hl)
            · exact noDD_append hB1
                (noDD_append (by decide) hpass (fun hl => by simp at hl))
                (fun _ => by
                  rw [head?_append_left (show "</em>".data.head? = some '<' from rfl)]
                  simp)
      · have hstep : emPassF (g+1) pv ((x :: a2) ++ placeholder 0 ++ b) =
            x :: emPassF g (decide (x = '*')) (a2 ++ placeholder 0 ++ b) := by
          simp only [List.cons_append, emPassF, List.append_eq]
          rw [if_neg htr]
        obtain ⟨a2', b2', heq, h1, h2, h3⟩ := ih (decide (x = '*')) a2 b ha2 hb
        refine ⟨x :: a2', b2', ?_, ?_, h2, Or.inr (Or.inl ⟨by simp, rfl⟩)⟩
        · rw [hstep, heq]
          simp
        · refine noDD_cons h1 ?_
          intro hx hhd
          rcases h3 with hh0 | ⟨ha2ne, hh1⟩ | hh2
          · rw [hh0] at hhd; cases hhd
          · rw [hh1] at hhd
            cases a2 with
            | nil => exact ha2ne rfl
            | cons y ys =>
              have hy : y = '_' := by simpa using hhd
              rw [hx, hy] at hpre
              simp [List.isPrefixOf] at hpre
          · rw [hh2] at hhd
            simp at hhd

theorem linkPassF_ph :
    ∀ (f : Nat) (a b : List Char),
      hasSub "__".data a = false → hasSub "__".data b = false →
      ∃ a' b', linkPassF f (a ++ placeholder 0 ++ b) = a' ++ placeholder 0 ++ b' ∧
        hasSub "__".data a' = false ∧ hasSub "__".data b' = false ∧
        (a' = [] ∨ (a ≠ [] ∧ a'.head? = a.head?) ∨ a'.head? = some '<') := by
  intro f
  induction f with
  | zero =>
    intro a b ha hb
    refine ⟨a, b, rfl, ha, hb, ?_⟩
    cases a with
    | nil => exact Or.inl rfl
    | cons => exact Or.inr (Or.inl ⟨by simp, rfl⟩)
  | succ g ih =>
    intro a b ha hb
    cases a with
    | nil =>
      refine ⟨[], linkPassF (g + 1 - (placeholder 0).length) b, ?_, rfl,
        (linkPassF_noDD _ b hb).1, Or.inl rfl⟩
      exact linkPassF_skip (placeholder 0) (by decide) (g + 1) b
    | cons x a2 =>
      obtain ⟨hpre, ha2⟩ := hasSub_cons_false ha
      by_cases htr : x = '['
      · cases hcl : linkAttempt (a2 ++ placeholder 0 ++ b) with
        | none =>
          have hstep : linkPassF (g+1) ((x :: a2) ++ placeholder 0 ++ b) =
              x :: linkPassF g (a2 ++ placeholder 0 ++ b) := by
            simp only [List.cons_append, linkPassF, List.append_eq, hcl]
            rw [if_pos htr]
          obtain ⟨a2', b2', heq, h1, h2, h3⟩ := ih a2 b ha2 hb
          refine ⟨x :: a2', b2', ?_, ?_, h2, Or.inr (Or.inl ⟨by simp, rfl⟩)⟩
          · rw [hstep, heq]
            simp
          · exact noDD_cons_ne (fun he => absurd (htr.symm.trans he) (by decide)) h1
        | some pr =>
          obtain ⟨txt, href, rest⟩ := pr
          have hdec : a2 ++ placeholder 0 ++ b = txt ++ ']' :: '(' :: (href ++ ')' :: rest) :=
            linkAttempt_decomp _ txt href rest hcl
          have hstep : linkPassF (g+1) ((x :: a2) ++ placeholder 0 ++ b) =
              "<a href=\"".data ++ href ++ "\" target=\"_blank\">".data ++ txt ++
                "</a>".data ++ linkPassF g rest := by
            simp only [List.cons_append, linkPassF, List.append_eq, hcl]
            rw [if_pos htr]
          rcases split_around_sep a2 (placeholder 0) b txt [']', '('] (href ++ ')' :: rest)
              (by decide) (by simp)
              (fun z hz hmem => by
                rcases List.mem_cons.mp hz with rfl | hz2
                · exact absurd hmem (by decide)
                · have : z = '(' := by simpa using hz2
                  subst this
                  exact absurd hmem (by decide))
              (by rw [hdec]; simp) with
            ⟨A2, hA2, hv1⟩ | ⟨B1, B2, hu1, hB1, hv1⟩
          · have hA2n : hasSub "__".data A2 = false := noDD_suffix ha2 hA2
            have htxt : hasSub "__".data txt = false :=
              noDD_front (noDD_front ha2 hA2) rfl
            rcases split_around_sep A2 (placeholder 0) b href [')'] rest
                (by decide) (by simp)
                (fun z hz hmem => by
                  have : z = ')' := by simpa using hz
                  subst this
                  exact absurd hmem (by decide))
                (by rw [← hv1]; simp) with
              ⟨A3, hA3, hv2⟩ | ⟨B1, B2, hu2, hB2, hv2⟩
            · have hA3n : hasSub "__".data A3 = false := noDD_suffix hA2n hA3
              have hhref : hasSub "__".data href = false :=
                noDD_front (noDD_front hA2n hA3) rfl
              obtain ⟨a2', b2', heq, h1, h2, h3⟩ := ih A3 b hA3n hb
              refine ⟨"<a href=\"".data ++ (href ++ ("\" target=\"_blank\">".data ++
                  (txt ++ ("</a>".data ++ a2')))), b2', ?_, ?_, h2,
                Or.inr (Or.inr (head?_append_left
                  (show "<a href=\"".data.head? = some '<' from rfl)))⟩
              · rw [hstep, hv2, heq]
                simp [List.append_assoc]
              · exact noDD_append (by decide)
                  (noDD_append hhref
                    (noDD_append (by decide)
                      (noDD_append htxt
                        (noDD_append (by decide) h1 (fun hl => by simp at hl))
                        (fun _ => by
                          rw [head?_append_left (show "</a>".data.head? = some '<' from rfl)]
                          simp))
                      (fun hl => by simp at hl))
                    (fun _ => by
                      rw [head?_append_left
                        (show "\" target=\"_blank\">".data.head? = some '\"' from rfl)]
                      simp))
                  (fun hl => by simp at hl)
            · have hB1n : hasSub "__".data B1 = false := noDD_front (noDD_front hb hB2) rfl
              have hB2n : hasSub "__".data B2 = false := noDD_suffix hb hB2
              have hpass : hasSub "__".data (linkPassF g B2) = false :=
                (linkPassF_noDD g B2 hB2n).1
              refine ⟨"<a href=\"".data ++ A2,
                B1 ++ ("\" target=\"_blank\">".data ++ (txt ++ ("</a>".data ++ linkPassF g B2))),
                ?_, ?_, ?_,
                Or.inr (Or.inr (head?_append_left
                  (show "<a href=\"".data.head? = some '<' from rfl)))⟩
              · rw [hstep, hu2, hv2]
                simp [List.append_assoc]
              · exact noDD_append (by decide) hA2n (fun hl => by simp at hl)
              · exact noDD_append hB1n
                  (noDD_append (by decide)
                    (noDD_append htxt
                      (noDD_append (by decide) hpass (fun hl => by simp at hl))
                      (fun _ => by
                        rw [head?_append_left (show "</a>".data.head? = some '<' from rfl)]
                        simp))
                    (fun hl => by simp at hl))
                  (fun _ => by
                    rw [head?_append_left
                      (show "\" target=\"_blank\">".data.head? = some '\"' from rfl)]
                    simp)
          · have hB1n : hasSub "__".data B1 = false := noDD_front (noDD_front hb hB1) rfl
            have hB2n : hasSub "__".data B2 = false := noDD_suffix hb hB1
            have hB2e : B2 = (href ++ [')']) ++ rest := by
              rw [← hv1]
              simp [List.append_assoc]
            have hhref : hasSub "__".data href = false :=
              noDD_front (noDD_front hB2n hB2e) rfl
            have hrest : hasSub "__".data rest = false := noDD_suffix hB2n hB2e
            have hpass : hasSub "__".data (linkPassF g rest) = false :=
              (linkPassF_noDD g rest hrest).1
            refine ⟨"<a href=\"".data ++ (href ++ ("\" target=\"_blank\">".data ++ a2)),
              B1 ++ ("</a>".data ++ linkPassF g rest), ?_, ?_, ?_,
              Or.inr (Or.inr (head?_append_left
                (show "<a href=\"".data.head? = some '<' from rfl)))⟩
            · rw [hstep, hu1]
              simp [List.append_assoc]
            · exact noDD_append (by decide)
                (noDD_append hhref
                  (noDD_append (by decide) ha2 (fun hl => by simp at hl))
                  (fun _ => by
                    rw [head?_append_left
                      (show "\" target=\"_blank\">".data.head? = some '\"' from rfl)]
                    simp))
                (fun hl => by simp at hl)
            · exact noDD_append hB1n
                (noDD_append (by decide) hpass (fun hl => by simp at hl))
                (fun _ => by
                  rw [head?_append_left (show "</a>".data.head? = some '<' from rfl)]
                  simp)
      · have hstep : linkPassF (g+1) ((x :: a2) ++ placeholder 0 ++ b) =
            x :: linkPassF g (a2 ++ placeholder 0 ++ b) := by
          simp only [List.cons_append, linkPassF, List.append_eq]
          rw [if_neg htr]
        obtain ⟨a2', b2', heq, h1, h2, h3⟩ := ih a2 b ha2 hb
        refine ⟨x :: a2', b2', ?_, ?_, h2, Or.inr (Or.inl ⟨by simp, rfl⟩)⟩
        · rw [hstep, heq]
          simp
        · refine noDD_cons h1 ?_
          intro hx hhd
          rcases h3 with hh0 | ⟨ha2ne, hh1⟩ | hh2
          · rw [hh0] at hhd; cases hhd
          · rw [hh1] at hhd
            cases a2 with
            | nil => exact ha2ne rfl
            | cons y ys =>
              have hy : y = '_' := by simpa using hhd
              rw [hx, hy] at hpre
              simp [List.isPrefixOf] at hpre
          · rw [hh2] at hhd
            simp at hhd

theorem restoreAttempt_fails_noDD (blocks : List (List Char)) (s b : List Char)
    (hs : hasSub "__".data s = false) (hne : s ≠ []) :
    restoreAttempt blocks (s ++ placeholder 0 ++ b) = none := by
  have hp : phStem.isPrefixOf (s ++ placeholder 0 ++ b) = false := by
    cases s with
    | nil => exact absurd rfl hne
    | cons z t =>
      cases t with
      | nil =>
        rw [Bool.eq_false_iff]
        intro hpp
        obtain ⟨tail, htail⟩ := List.isPrefixOf_iff_prefix.mp hpp
        injection htail with e1 E1
        injection E1 with e2 E2
        injection E2 with e3 _
        exact absurd e3 (by decide)
      | cons z2 t2 =>
        rw [Bool.eq_false_iff]
        intro hpp
        obtain ⟨tail, htail⟩ := List.isPrefixOf_iff_prefix.mp hpp
        injection htail with e1 E1
        injection E1 with e2 E2
        rw [← e1, ← e2] at hs
        simp [hasSub, List.isPrefixOf] at hs
  unfold restoreAttempt
  rw [hp]
  simp

theorem restoreF_skip_noDD (blocks : List (List Char)) :
    ∀ (s : List Char), hasSub "__".data s = false →
      ∀ (f : Nat) (b : List Char),
        restoreF blocks f (s ++ placeholder 0 ++ b) =
          s ++ restoreF blocks (f - s.length) (placeholder 0 ++ b) := by
  intro s
  induction s with
  | nil => intro _ f b; simp
  | cons x t ih =>
    intro hs f b
    cases f with
    | zero => simp [restoreF]
    | succ g =>
      have hat : restoreAttempt blocks ((x :: t) ++ placeholder 0 ++ b) = none :=
        restoreAttempt_fails_noDD blocks (x :: t) b hs (by simp)
      have hstep : restoreF blocks (g+1) ((x :: t) ++ placeholder 0 ++ b) =
          x :: restoreF blocks g (t ++ placeholder 0 ++ b) := by
        simp only [List.cons_append, restoreF, List.append_eq]
        rw [show restoreAttempt blocks (x :: (t ++ placeholder 0 ++ b)) = none from hat]
      rw [hstep, ih (hasSub_cons_false hs).2 g b]
      simp [Nat.succ_sub_succ]

theorem restorePass_found (e s b : List Char) (hs : hasSub "__".data s = false) :
    ∃ v, restorePass [e] (s ++ placeholder 0 ++ b) =
      s ++ ("<code>".data ++ e ++ "</code>".data) ++ v := by
  unfold restorePass
  rw [restoreF_skip_noDD [e] s hs _ b]
  have hf : (s ++ placeholder 0 ++ b).length - s.length = (27 + b.length) + 1 := by
    simp [placeholder, phStem, show Nat.toDigits 10 0 = ['0'] from by decide]
    omega
  rw [hf]
  rw [restoreF_cons_found [e] (27 + b.length) (placeholder 0 ++ b) _ b
    (by simp [placeholder, phStem]) (restoreAttempt_ph e b)]
  exact ⟨restoreF [e] (27 + b.length) b, by simp [List.append_assoc]⟩

/-- C2 (amended): inline code spans are atomic provided the text does
not collide with the internal placeholder scheme.  For any non-empty
backtick-free span content, and any surrounding text that is
backtick-free (so the span is the input's code span) and contains no
two consecutive underscores (the delimiter shape of the internal
`__DABIR_CODE_PLACEHOLDER_n__` tokens), the output of `parseInline`
contains `<code>` ++ (the span text HTML-escaped exactly once by
`escapeCode`) ++ `</code>` as one contiguous segment.  The surrounding
text may use any formatting syntax — `*`, `~`, `=`, links, single
underscores, including bold/italic/link markup wrapping or adjacent to
the span — and the span's characters are never interpreted as
formatting (they are removed before the substitution passes run and
re-inserted verbatim afterwards).  The escaping touches only `&`, `<`,
`>` (second conjunct).  `C2_atomicity_cex` shows the claim fails
without the placeholder-collision restriction. -/
theorem C2_span_atomicity (pre c post : List Char)
    (hc : c ≠ []) (hcb : ∀ x ∈ c, ¬ x = backtick)
    (hpreb : ∀ x ∈ pre, ¬ x = backtick) (hpostb : ∀ x ∈ post, ¬ x = backtick)
    (hpredd : hasSub "__".data pre = false) (hpostdd : hasSub "__".data post = false) :
    (∃ u v, parseInline (pre ++ backtick :: (c ++ backtick :: post)) =
      u ++ ("<code>".data ++ escapeCode c ++ "</code>".data) ++ v) ∧
    (∀ s : List Char, (∀ x ∈ s, ¬ x = '&' ∧ ¬ x = '<' ∧ ¬ x = '>') → escapeCode s = s) := by
  refine ⟨?_, escapeCode_clean⟩
  have hne : (pre ++ backtick :: (c ++ backtick :: post)).isEmpty = false :=
    List.isEmpty_eq_false.mpr (List.append_ne_nil_of_right_ne_nil pre (by simp))
  unfold parseInline parseInlineGuarded
  rw [hne]
  simp only [Bool.false_eq_true, if_false]
  simp only [parseInlineBody]
  rw [extractCode_span pre c post hpreb hc hcb hpostb]
  obtain ⟨a1, b1, he1, h1a, h1b, _⟩ :=
    linkPassF_ph (pre ++ placeholder 0 ++ post).length pre post hpredd hpostdd
  obtain ⟨a2, b2, he2, h2a, h2b, _⟩ :=
    pairPassF_ph '*' "<strong>".data "</strong>".data (by decide) (by decide)
      (by decide) (by decide) rfl rfl (by decide) (by decide)
      (a1 ++ placeholder 0 ++ b1).length a1 b1 h1a h1b
  obtain ⟨a3, b3, he3, h3a, h3b, _⟩ :=
    emPassF_ph (a2 ++ placeholder 0 ++ b2).length false a2 b2 h2a h2b
  obtain ⟨a4, b4, he4, h4a, h4b, _⟩ :=
    pairPassF_ph '~' "<del>".data "</del>".data (by decide) (by decide)
      (by decide) (by decide) rfl rfl (by decide) (by decide)
      (a3 ++ placeholder 0 ++ b3).length a3 b3 h3a h3b
  obtain ⟨a5, b5, he5, h5a, h5b, _⟩ :=
    pairPassF_ph '=' "<mark>".data "</mark>".data (by decide) (by decide)
      (by decide) (by decide) rfl rfl (by decide) (by decide)
      (a4 ++ placeholder 0 ++ b4).length a4 b4 h4a h4b
  obtain ⟨v, hv⟩ := restorePass_found (escapeCode c) a5 b5 h5a
  refine ⟨a5, v, ?_⟩
  rw [show linkPass (pre ++ placeholder 0 ++ post) = a1 ++ placeholder 0 ++ b1 from he1]
  rw [show pairPass '*' "<strong>".data "</strong>".data (a1 ++ placeholder 0 ++ b1) =
    a2 ++ placeholder 0 ++ b2 from he2]
  rw [show emPass (a2 ++ placeholder 0 ++ b2) = a3 ++ placeholder 0 ++ b3 from he3]
  rw [show pairPass '~' "<del>".data "</del>".data (a3 ++ placeholder 0 ++ b3) =
    a4 ++ placeholder 0 ++ b4 from he4]
  rw [show pairPass '=' "<mark>".data "</mark>".data (a4 ++ placeholder 0 ++ b4) =
    a5 ++ placeholder 0 ++ b5 from he5]
  exact hv

/-- C2 witness: around the span, bold markup and a later italic appear;
inside it, `*` and `<`. -/
theorem C2_witness :
    (∃ u v, parseInline ("**a** ".data ++ backtick :: ("b*<".data ++ backtick :: " *c*".data)) =
      u ++ ("<code>".data ++ escapeCode "b*<".data ++ "</code>".data) ++ v) ∧
    escapeCode "x*~_[".data = "x*~_[".data :=
  ⟨(C2_span_atomicity "**a** ".data "b*<".data " *c*".data (by decide) (by decide)
      (by decide) (by decide) (by decide) (by decide)).1,
    (C2_span_atomicity "**a** ".data "b*<".data " *c*".data (by decide) (by decide)
      (by decide) (by decide) (by decide) (by decide)).2 "x*~_[".data (by decide)⟩

theorem collapseNlF_nil : ∀ f, collapseNlF f [] = [] := by
  intro f; cases f <;> rfl

theorem collapseNlF_head? : ∀ (f : Nat) (l : List Char),
    (collapseNlF f l).head? = l.head? := by
  intro f l
  cases f with
  | zero => rfl
  | succ g =>
    cases l with
    | nil => rfl
    | cons c cs =>
      by_cases hc : c = '\n'
      · subst hc
        by_cases hrun : 2 ≤ (cs.takeWhile (fun x => x == '\n')).length
        · simp [collapseNlF, hrun]
        · simp [collapseNlF, hrun]
      · simp [collapseNlF, hc]

theorem drop_length_takeWhile (p : Char → Bool) : ∀ l : List Char,
    l.drop (l.takeWhile p).length = l.dropWhile p := by
  intro l
  induction l with
  | nil => rfl
  | cons x t ih =>
    by_cases hx : p x = true
    · rw [List.takeWhile_cons_of_pos hx, List.dropWhile_cons_of_pos hx]
      simpa using ih
    · rw [List.takeWhile_cons_of_neg (by simp [hx]), List.dropWhile_cons_of_neg (by simp [hx])]
      rfl

theorem dropWhile_head_not {p : Char → Bool} : ∀ (l : List Char) (c : Char),
    (l.dropWhile p).head? = some c → p c = false := by
  intro l
  induction l with
  | nil => intro c h; simp at h
  | cons x t ih =>
    intro c h
    by_cases hx : p x = true
    · rw [List.dropWhile_cons_of_pos hx] at h
      exact ih c h
    · rw [List.dropWhile_cons_of_neg (by simp [hx])] at h
      simp only [List.head?_cons, Option.some.injEq] at h
      subst h
      simpa using hx

theorem nl_isPrefixOf_false (p' O : List Char) (h : O.head? ≠ some '\n') :
    (('\n' :: p') : List Char).isPrefixOf O = false := by
  cases O with
  | nil => rfl
  | cons o O' =>
    have hne : ('\n' == o) = false := by
      rw [beq_eq_false_iff_ne]
      intro he
      exact h (by rw [he]; rfl)
    simp [List.isPrefixOf, hne]

theorem collapseNlF_no_triple : ∀ (f : Nat) (l : List Char), l.length ≤ f →
    hasSub "\n\n\n".data (collapseNlF f l) = false := by
  intro f
  induction f with
  | zero =>
    intro l hl
    rw [List.length_eq_zero.mp (Nat.le_zero.mp hl)]
    rfl
  | succ g ih =>
    intro l hl
    cases l with
    | nil => rw [collapseNlF_nil]; rfl
    | cons c cs =>
      have hcs : cs.length ≤ g := Nat.le_of_succ_le_succ (by simpa using hl)
      by_cases hc : c = '\n'
      · subst hc
        by_cases hrun : 2 ≤ (cs.takeWhile (fun x => x == '\n')).length
        · rw [show collapseNlF (g + 1) ('\n' :: cs) = '\n' :: '\n' ::
              collapseNlF g (cs.drop (cs.takeWhile (fun x => x == '\n')).length) from by
            simp [collapseNlF, hrun]]
          have hhead : (collapseNlF g
              (cs.drop (cs.takeWhile (fun x => x == '\n')).length)).head? ≠ some '\n' := by
            rw [collapseNlF_head?, drop_length_takeWhile]
            intro hcon
            have := dropWhile_head_not cs '\n' hcon
            simp at this
          have hIH : hasSub "\n\n\n".data (collapseNlF g
              (cs.drop (cs.takeWhile (fun x => x == '\n')).length)) = false := by
            apply ih
            calc (cs.drop (cs.takeWhile (fun x => x == '\n')).length).length
                ≤ cs.length := by simp
              _ ≤ g := hcs
          simp only [hasSub, hIH, Bool.or_false]
          rw [show ("\n\n\n".data.isPrefixOf
              ('\n' :: '\n' :: collapseNlF g
                (cs.drop (cs.takeWhile (fun x => x == '\n')).length))) =
              (('\n' :: []) : List Char).isPrefixOf (collapseNlF g
                (cs.drop (cs.takeWhile (fun x => x == '\n')).length)) from by
            simp [List.isPrefixOf]]
          rw [nl_isPrefixOf_false [] _ hhead]
          rw [show ("\n\n\n".data.isPrefixOf
              ('\n' :: collapseNlF g
                (cs.drop (cs.takeWhile (fun x => x == '\n')).length))) =
              (('\n' :: '\n' :: []) : List Char).isPrefixOf (collapseNlF g
                (cs.drop (cs.takeWhile (fun x => x == '\n')).length)) from by
            simp [List.isPrefixOf]]
          rw [nl_isPrefixOf_false ['\n'] _ hhead]
          rfl
        · rw [show collapseNlF (g + 1) ('\n' :: cs) = '\n' :: collapseNlF g cs from by
            simp [collapseNlF, hrun]]
          have hIH : hasSub "\n\n\n".data (collapseNlF g cs) = false := ih cs hcs
          simp only [hasSub, hIH, Bool.or_false]
          rw [show ("\n\n\n".data.isPrefixOf ('\n' :: collapseNlF g cs)) =
              (('\n' :: '\n' :: []) : List Char).isPrefixOf (collapseNlF g cs) from by
            simp [List.isPrefixOf]]
          cases cs with
          | nil => rw [collapseNlF_nil]; rfl
          | cons c2 cs2 =>
            by_cases hc2 : c2 = '\n'
            · subst hc2
              have htw : cs2.takeWhile (fun x => x == '\n') = [] := by
                by_contra htc
                apply hrun
                rw [List.takeWhile_cons_of_pos (by simp)]
                have : 1 ≤ (cs2.takeWhile (fun x => x == '\n')).length :=
                  Nat.one_le_iff_ne_zero.mpr (by simpa using htc)
                simpa using Nat.succ_le_succ this
              cases g with
              | zero => simp at hcs
              | succ g2 =>
                rw [show collapseNlF (g2 + 1) ('\n' :: cs2) = '\n' :: collapseNlF g2 cs2 from by
                  simp [collapseNlF, htw]]
                rw [show ((('\n' :: '\n' :: []) : List Char).isPrefixOf
                    ('\n' :: collapseNlF g2 cs2)) =
                    (('\n' :: []) : List Char).isPrefixOf (collapseNlF g2 cs2) from by
                  simp [List.isPrefixOf]]
                apply nl_isPrefixOf_false
                rw [collapseNlF_head?]
                cases cs2 with
                | nil => simp
                | cons c3 cs3 =>
                  have : (c3 == '\n') = false := by
                    by_contra hcon
                    rw [List.takeWhile_cons_of_pos (by simpa using hcon)] at htw
                    simp at htw
                  simp only [List.head?_cons, ne_eq, Option.some.injEq]
                  intro he
                  rw [he] at this
                  simp at this
            · apply nl_isPrefixOf_false
              rw [collapseNlF_head?]
              simp only [List.head?_cons, ne_eq, Option.some.injEq]
              intro he
              exact hc2 he
      · rw [show collapseNlF (g + 1) (c :: cs) = c :: collapseNlF g cs from by
          simp [collapseNlF, hc]]
        have hIH : hasSub "\n\n\n".data (collapseNlF g cs) = false := ih cs hcs
        simp only [hasSub, hIH, Bool.or_false]
        exact nl_isPrefixOf_false "\n\n".data _ (by
          simp only [List.head?_cons, ne_eq, Option.some.injEq]
          intro he
          exact hc he)

theorem collapseNl_no_triple (l : List Char) :
    hasSub "\n\n\n".data (collapseNl l) = false :=
  collapseNlF_no_triple l.length l (Nat.le_refl _)

theorem jsTrim_within (l : List Char) : jsTrim l <:+: l := by
  have h1 : (l.dropWhile jsWhitespace).reverse.dropWhile jsWhitespace <:+
      (l.dropWhile jsWhitespace).reverse := List.dropWhile_suffix _
  have h2 : ((l.dropWhile jsWhitespace).reverse.dropWhile jsWhitespace).reverse <+:
      l.dropWhile jsWhitespace :=
    List.reverse_suffix.mp (by rwa [List.reverse_reverse])
  exact h2.isInfix.trans (List.dropWhile_suffix jsWhitespace).isInfix

theorem dropWhile_eq_self_of_head {p : Char → Bool} (l : List Char)
    (h : ∀ c, l.head? = some c → p c = false) : l.dropWhile p = l := by
  cases l with
  | nil => rfl
  | cons x t => exact List.dropWhile_cons_of_neg (by simp [h x rfl])

theorem jsTrim_eq_self (l : List Char)
    (h1 : ∀ c, l.head? = some c → jsWhitespace c = false)
    (h2 : ∀ c, l.getLast? = some c → jsWhitespace c = false) : jsTrim l = l := by
  unfold jsTrim
  rw [dropWhile_eq_self_of_head l h1]
  rw [dropWhile_eq_self_of_head l.reverse
    (fun c hc => h2 c (by rwa [List.head?_reverse] at hc))]
  exact List.reverse_reverse _

theorem jsTrim_idem (l : List Char) : jsTrim (jsTrim l) = jsTrim l := by
  have hpre : jsTrim l <+: l.dropWhile jsWhitespace := by
    unfold jsTrim
    exact List.reverse_suffix.mp (by rw [List.reverse_reverse]; exact List.dropWhile_suffix _)
  refine jsTrim_eq_self (jsTrim l) ?_ ?_
  · intro c hc
    obtain ⟨t, ht⟩ := hpre
    have hu : (l.dropWhile jsWhitespace).head? = some c := by
      rw [← ht, List.head?_append, hc]
      rfl
    exact dropWhile_head_not l c hu
  · intro c hc
    unfold jsTrim at hc
    rw [List.getLast?_reverse] at hc
    exact dropWhile_head_not _ c hc

/-- C1 (amended): the universal serialize → re-parse → re-serialize
round trip fails (`C1_roundtrip_cex`), but the serializer's final
normalization guarantees hold for every markup tree: the output of
`HtmlParser.parse` never contains a run of three or more consecutive
line breaks, and it has no leading or trailing whitespace (it is a
fixed point of trimming). -/
theorem C1_serializer_normalization (root : HNode) :
    hasSub "\n\n\n".data (htmlParserParse root) = false ∧
    jsTrim (htmlParserParse root) = htmlParserParse root := by
  constructor
  · unfold htmlParserParse
    by_contra hcon
    rw [Bool.not_eq_false] at hcon
    have h1 := (hasSub_true_characterization _ _).mp hcon
    have h2 := h1.trans (jsTrim_within (collapseNl (convertNode false root)))
    have h3 := (hasSub_true_characterization _ _).mpr h2
    rw [collapseNl_no_triple] at h3
    exact absurd h3 (by simp)
  · unfold htmlParserParse
    exact jsTrim_idem _

/-- C1 witness: the normalization property at a concrete tree whose raw
conversion contains a three-newline run. -/
theorem C1_witness :
    hasSub "\n\n\n".data (htmlParserParse (.text "x\n\n\n\ny".data)) = false ∧
    jsTrim (htmlParserParse (.text "x\n\n\n\ny".data)) =
      htmlParserParse (.text "x\n\n\n\ny".data) :=
  C1_serializer_normalization (.text "x\n\n\n\ny".data)
